import Mathlib

/-!
Verification of the echo-serv reverse proxy against its specification.

The development shallowly embeds the two core source files:

* `src/http/headers.rs` — the header parsing/rewriting engine.  Its
  functions are built on Rust's `regex` crate; each regex used by the
  source is translated here into an explicit matcher over `List Char`,
  following the crate's leftmost-first (Perl-style, backtracking
  equivalent) match semantics.  Character classes are modelled on the
  ASCII range (`\w`, `\d`, `\s` are Unicode-aware in the `regex` crate;
  theorems that depend on a class therefore restrict their inputs to
  ASCII, where the model is exact).  `str::to_lowercase` is likewise
  modelled by ASCII lowercasing.
* `src/lib.rs` — the per-connection proxy lifecycle (`Handler::handle_proxy`),
  embedded as a function from the connection's inputs (client request,
  upstream behaviour) to the trace of observable events it performs.

Bytes are modelled as `Nat` (a decoder input that is not a byte simply
fails range checks).  Strings are Lean `String`s; the matchers work on
`String.data`.
-/

namespace EchoServ

/-- Modelled from the spec: the line terminator constant `CRLF` of the
`http` module, whose file is not among the sources; the spec fixes it as
the CR LF sequence ("split `raw` on the line terminator sequence (CR LF)"). -/
def CRLF : String := "\r\n"

/-- Worker for `replaceAll`, structurally recursive on a fuel argument so
that it reduces inside the kernel; the fuel only bounds the recursion
depth and `replaceAll` passes the input's length, which the scan never
exhausts (each step consumes at least one character). -/
def replaceAllF (pat sub : List Char) : Nat → List Char → List Char
  | _, [] => []
  | 0, l => l
  | fuel + 1, c :: rest =>
    match pat with
    | [] => c :: rest
    | _ :: ps =>
      if pat.isPrefixOf (c :: rest) then sub ++ replaceAllF pat sub fuel (rest.drop ps.length)
      else c :: replaceAllF pat sub fuel rest

/-- Rust `str::replace`: replace every non-overlapping occurrence of `pat`
by `sub`, scanning left to right.  (`heads.replace(old_host, ...)` and
`.replace(": ", "")` in the source.)  An empty pattern is never used by
the source; it is mapped to the identity to keep the function total. -/
def replaceAll (pat sub l : List Char) : List Char := replaceAllF pat sub l.length l

/-- Rust `str::split(CRLF)` on a character list: split on the two-character
sequence `"\r\n"`, keeping empty segments (as Rust's `split` does). -/
def splitCRLF : List Char → List (List Char)
  | [] => [[]]
  | '\r' :: '\n' :: rest => [] :: splitCRLF rest
  | c :: rest =>
    match splitCRLF rest with
    | [] => [[c]]
    | h :: t => (c :: h) :: t

/-- Every colon in the list is immediately followed by a space character
(within the list). -/
def colonSpaced : List Char → Bool
  | [] => true
  | c :: rest => (if c = ':' then rest.head? == some ' ' else true) && colonSpaced rest

/-- The pattern occurs as a contiguous sublist. -/
def containsSub (pat : List Char) : List Char → Bool
  | [] => pat.isEmpty
  | c :: rest => pat.isPrefixOf (c :: rest) || containsSub pat rest

/-- Index of the last occurrence of the two-character separator `": "`. -/
def lastSepPos : List Char → Option Nat
  | [] => none
  | c :: rest =>
    match lastSepPos rest with
    | some j => some (j + 1)
    | none => if c = ':' && rest.head? == some ' ' then some 0 else none

/-- The regex `^.+: ` of `Headers::from_string`, applied to one line:
`.+` is greedy and `.` does not match `'\n'`, so the whole match (capture
group 0) runs from the start of the line through the *last* `": "` that
lies in the line's newline-free prefix, and the text before that
separator must be nonempty. -/
def nameMatch (h : List Char) : Option (List Char) :=
  match lastSepPos (h.takeWhile (fun c => c ≠ '\n')) with
  | none => none
  | some j => if 1 ≤ j then some (h.take (j + 2)) else none

/-- The regex `: *.*$` of `Headers::from_string`, applied to one line:
`$` anchors at the end of the haystack and `.`/`' '` cannot match `'\n'`,
so the match starts at the leftmost colon that has no `'\n'` after it and
runs to the end of the line. -/
def valueSuffix : List Char → Option (List Char)
  | [] => none
  | c :: rest =>
    if c = ':' && !(rest.contains '\n') then some (c :: rest)
    else valueSuffix rest

/-- Rust `str::to_lowercase`, on the ASCII range (the source applies it to
header values). -/
def lowerStr (l : List Char) : List Char := l.map Char.toLower

/-- The `Header` struct: one ordered name/value pair. -/
structure Header where
  name : String
  value : String
deriving Repr, DecidableEq

/-- The `Headers` struct: the raw preamble text plus the parsed list. -/
structure Headers where
  raw : String
  list : List Header
deriving Repr, DecidableEq

/-- One iteration of the `for h in heads` loop of `Headers::from_string`:
capture `^.+: ` (no capture: the line is skipped), strip every `": "` from
the capture to obtain the name; capture `: *.*$` (no capture: empty
value), strip every `": "` and lowercase to obtain the value. -/
def parseLine (h : List Char) : Option Header :=
  match nameMatch h with
  | none => none
  | some nm =>
    let name : String := ⟨replaceAll ": ".data [] nm⟩
    match valueSuffix h with
    | none => some ⟨name, ""⟩
    | some vm => some ⟨name, ⟨lowerStr (replaceAll ": ".data [] vm)⟩⟩

/-- `Headers::from_string`: split the raw text on CRLF and run `parseLine`
on every line.  (The call to `get_headers_prefix` at the top of the Rust
function only feeds a debug `println!` and its `Result` is discarded, so
it has no bearing on the returned value and is not modelled.) -/
def Headers.from_string (raw : String) : Headers :=
  ⟨raw, (splitCRLF raw.data).filterMap parseLine⟩

/-- Leftmost-match search shared by the regex matchers: try the matcher at
every start position, left to right (a regex crate `captures` call returns
the leftmost match; none of the patterns below can match at the end of the
haystack, so the scan stops at the empty suffix). -/
def scanFirst (f : List Char → Option (List Char)) : List Char → Option (List Char)
  | [] => none
  | c :: rest =>
    match f (c :: rest) with
    | some m => some m
    | none => scanFirst f rest

/-- The regex `Host: *.*\r\n` of `Headers::change_host`, applied at the
head of the list: after the literal `Host:`, neither `' '*` nor `.*` can
match `'\n'`, so a match requires the first `'\n'` after the literal to be
preceded by `'\r'`, and capture group 0 runs through that CRLF. -/
def hostMatchAt (l : List Char) : Option (List Char) :=
  if "Host:".data.isPrefixOf l then
    let rest := l.drop 5
    match rest.findIdx? (fun c => c = '\n') with
    | none => none
    | some q =>
      if 1 ≤ q ∧ rest.get? (q - 1) = some '\r' then some (l.take (5 + q + 1)) else none
  else none

/-- Leftmost match of the regex `Host: *.*\r\n`. -/
def findHost : List Char → Option (List Char) := scanFirst hostMatchAt

/-- `Headers::change_host`: if the Host regex has no match, return the
input unchanged; otherwise replace every occurrence of the matched text
(`str::replace` replaces all occurrences) by `Host: <target>\r\n`. -/
def Headers.change_host (heads : String) (target : String) : String :=
  match findHost heads.data with
  | none => heads
  | some m => ⟨replaceAll m ("Host: ".data ++ target.data ++ CRLF.data) heads.data⟩

/-- The regex class `\s`, on the ASCII range. -/
def isWs (c : Char) : Bool :=
  c = ' ' || c = '\t' || c = '\n' || c = '\x0b' || c = '\x0c' || c = '\r'

/-- The regex `(c|C)ontent-(l|L)ength:\s*\d+` of
`Headers::get_content_length`, applied at the head of the list: the two
word-initial letters are case-insensitive, the rest of the token is
literal, then greedy whitespace, then a nonempty greedy digit run; capture
group 0 runs through the digit run. -/
def clMatchAt (l : List Char) : Option (List Char) :=
  match l with
  | [] => none
  | c0 :: r1 =>
    if (c0 = 'c' || c0 = 'C') && "ontent-".data.isPrefixOf r1 then
      match r1.drop 7 with
      | [] => none
      | c1 :: r2 =>
        if (c1 = 'l' || c1 = 'L') && "ength:".data.isPrefixOf r2 then
          let r3 := r2.drop 6
          let ws := r3.takeWhile isWs
          let ds := (r3.drop ws.length).takeWhile Char.isDigit
          if ds.isEmpty then none
          else some (c0 :: "ontent-".data ++ c1 :: "ength:".data ++ ws ++ ds)
        else none
    else none

/-- Leftmost match of the content-length regex. -/
def findCL : List Char → Option (List Char) := scanFirst clMatchAt

/-- First match of the regex `\d+` inside a text (used by
`get_content_length` on its first capture). -/
def firstDigitRun (l : List Char) : Option (List Char) :=
  match (l.dropWhile (fun c => !c.isDigit)).takeWhile Char.isDigit with
  | [] => none
  | ds => some ds

/-- Numeric value of a digit run (Rust `str::parse`'s accumulation). -/
def natOfDigits (l : List Char) : Nat :=
  l.foldl (fun acc c => acc * 10 + (c.toNat - 48)) 0

/-- `u32::MAX`: `str::parse::<u32>` fails above it. -/
def U32_MAX : Nat := 4294967295

/-- `Headers::get_content_length`: find the content-length token, take the
first digit run of the match, and parse it as a `u32` (`None` on overflow;
the accompanying `println!` is a side effect only). -/
def Headers.get_content_length (raw : String) : Option Nat :=
  match findCL raw.data with
  | none => none
  | some m =>
    match firstDigitRun m with
    | none => none
    | some ds =>
      let n := natOfDigits ds
      if n ≤ U32_MAX then some n else none

/-- The regex class `\w`, on the ASCII range. -/
def isWordChar (c : Char) : Bool := c.isAlphanum || c = '_'

/-- The regex `\w+` of `Headers::get_method`, applied at the head of the
list: a word character starts the match, which greedily extends through
the following word characters. -/
def wordMatchAt (l : List Char) : Option (List Char) :=
  match l with
  | [] => none
  | c :: rest => if isWordChar c then some (c :: rest.takeWhile isWordChar) else none

/-- Leftmost match of the regex `\w+`. -/
def findWordRun : List Char → Option (List Char) := scanFirst wordMatchAt

/-- `Headers::get_method`: first `\w+` match, or the `"OPTIONS"` sentinel. -/
def Headers.get_method (raw : String) : String :=
  match findWordRun raw.data with
  | none => "OPTIONS"
  | some m => ⟨m⟩

/-- The suffix `\/\d+\.\d+` of the protocol regex, applied at the head of
the list: a slash, a nonempty digit run, a dot, a nonempty digit run. -/
def protoTail (r : List Char) : Option (List Char) :=
  match r with
  | [] => none
  | c :: r2 =>
    if c = '/' then
      let d1 := r2.takeWhile Char.isDigit
      if d1.isEmpty then none
      else
        let rest := r2.drop d1.length
        if rest.head? = some '.' then
          let d2 := (rest.drop 1).takeWhile Char.isDigit
          if d2.isEmpty then none
          else some ('/' :: d1 ++ '.' :: d2)
        else none
    else none

/-- The regex `HTTPS?\/\d+\.\d+` of `Headers::get_protocol`, applied at
the head of the list; `S?` is greedy, with the usual backtracking
fallback when the tail fails after consuming the `S`. -/
def protoMatchAt (l : List Char) : Option (List Char) :=
  if "HTTP".data.isPrefixOf l then
    let r := l.drop 4
    if r.head? = some 'S' then
      match protoTail (r.drop 1) with
      | some t => some ("HTTPS".data ++ t)
      | none =>
        match protoTail r with
        | some t => some ("HTTP".data ++ t)
        | none => none
    else
      match protoTail r with
      | some t => some ("HTTP".data ++ t)
      | none => none
  else none

/-- Leftmost match of the protocol regex. -/
def findProto : List Char → Option (List Char) := scanFirst protoMatchAt

/-- `Headers::get_protocol`: first protocol-token match, or the
`"OPTIONS"` sentinel. -/
def Headers.get_protocol (raw : String) : String :=
  match findProto raw.data with
  | none => "OPTIONS"
  | some m => ⟨m⟩

/-! ### UTF-8 (for `Headers::from_bytes`, which calls `str::from_utf8`) -/

/-- A byte, kept as a `Nat`; values `≥ 256` never arise from encoding and
fail every range check of the decoder. -/
abbrev Byte := Nat

/-- UTF-8 encoding of one unicode scalar value (Rust `char`), by the
standard ranges. -/
def encodeCharNat (n : Nat) : List Byte :=
  if n < 0x80 then [n]
  else if n < 0x800 then [0xC0 + n / 64, 0x80 + n % 64]
  else if n < 0x10000 then [0xE0 + n / 4096, 0x80 + n / 64 % 64, 0x80 + n % 64]
  else [0xF0 + n / 262144, 0x80 + n / 4096 % 64, 0x80 + n / 64 % 64, 0x80 + n % 64]

/-- UTF-8 encoding of a character sequence. -/
def utf8Encode (cs : List Char) : List Byte :=
  (cs.map (fun c => encodeCharNat c.toNat)).flatten

/-- UTF-8 encoding of a string's characters. -/
def strBytes (s : String) : List Byte := utf8Encode s.data

/-- Make a `Char` from a scalar value, with a default for invalid input;
the decoder's range checks make every use valid. -/
def mkCharD (n : Nat) : Char :=
  if h : n.isValidChar then Char.ofNatAux n h else 'A'

/-- UTF-8 continuation byte. -/
def isCont (b : Byte) : Bool := 0x80 ≤ b && b ≤ 0xBF

/-- Admissible second byte of a three-byte sequence (depends on the lead
byte, per Rust's `core::str` validation table). -/
def cont2ok (b0 b1 : Byte) : Bool :=
  if b0 = 0xE0 then 0xA0 ≤ b1 && b1 ≤ 0xBF
  else if b0 = 0xED then 0x80 ≤ b1 && b1 ≤ 0x9F
  else isCont b1

/-- Admissible second byte of a four-byte sequence (depends on the lead
byte, per Rust's `core::str` validation table). -/
def cont3ok (b0 b1 : Byte) : Bool :=
  if b0 = 0xF0 then 0x90 ≤ b1 && b1 ≤ 0xBF
  else if b0 = 0xF4 then 0x80 ≤ b1 && b1 ≤ 0x8F
  else isCont b1

/-- Strict UTF-8 decoding, following Rust's `str::from_utf8` validation
(`core::str` byte-range table): rejects overlong forms, surrogates and
values above `0x10FFFF`. -/
def decodeUtf8 : List Byte → Option (List Char)
  | [] => some []
  | b0 :: rest =>
    if b0 < 0x80 then
      (decodeUtf8 rest).map (fun cs => mkCharD b0 :: cs)
    else if 0xC2 ≤ b0 && b0 ≤ 0xDF then
      match rest with
      | b1 :: rest1 =>
        if isCont b1 then
          (decodeUtf8 rest1).map (fun cs => mkCharD ((b0 - 0xC0) * 64 + (b1 - 0x80)) :: cs)
        else none
      | [] => none
    else if 0xE0 ≤ b0 && b0 ≤ 0xEF then
      match rest with
      | b1 :: b2 :: rest2 =>
        if cont2ok b0 b1 && isCont b2 then
          (decodeUtf8 rest2).map
            (fun cs => mkCharD ((b0 - 0xE0) * 4096 + (b1 - 0x80) * 64 + (b2 - 0x80)) :: cs)
        else none
      | _ => none
    else if 0xF0 ≤ b0 && b0 ≤ 0xF4 then
      match rest with
      | b1 :: b2 :: b3 :: rest3 =>
        if cont3ok b0 b1 && isCont b2 && isCont b3 then
          (decodeUtf8 rest3).map
            (fun cs => mkCharD
              ((b0 - 0xF0) * 262144 + (b1 - 0x80) * 4096 + (b2 - 0x80) * 64 + (b3 - 0x80)) :: cs)
        else none
      | _ => none
    else none

/-- `Headers::from_bytes`: fail with an `InvalidInput` error when the
bytes are not valid UTF-8 (`str::from_utf8` errs), otherwise delegate to
`from_string` on the decoded text. -/
def Headers.from_bytes (heads : List Byte) : Except String Headers :=
  match decodeUtf8 heads with
  | none => .error "InvalidInput"
  | some cs => .ok (Headers.from_string ⟨cs⟩)

/-! ### The proxy connection handler (`Handler::handle_proxy`, `src/lib.rs`) -/

/-- Modelled from the spec: the severities of the `log` module, whose file
is not among the sources ("log verbosity level (enumerated severities, at
least Info/Warn/Error)"). -/
inductive LogLevel
  | info
  | warn
  | error
deriving Repr, DecidableEq

/-- Modelled from the spec: the `Status` values the handler uses, from the
`http` module whose file is not among the sources; the spec fixes their
numeric codes ("status line for 400" / "status line for 502"). -/
inductive Status
  | badRequest
  | badGateway
deriving Repr, DecidableEq

/-- Numeric code of a status. -/
def Status.code : Status → Nat
  | .badRequest => 400
  | .badGateway => 502

/-- I/O error kinds as `handle_proxy` distinguishes them: the body loop
treats `ErrorKind::ConnectionReset` specially and lumps every other kind
together. -/
inductive ErrKind
  | connectionReset
  | other
deriving Repr, DecidableEq

/-- Result of one `read` call on the upstream socket. -/
inductive ReadResult
  | ok (data : List Byte)
  | err (k : ErrKind)
deriving Repr, DecidableEq

/-- Observable actions of one `handle_proxy` job, in program order. -/
inductive Event
  | logged (lvl : LogLevel) (msg : String)
  | statusSet (code : Nat)
  | wroteClient (bytes : List Byte)
  | connectAttempt
  | wroteUpstream (bytes : List Byte)
  | flushed
  | slept (ms : Nat)
deriving Repr, DecidableEq

/-- `CHUNK_SIZE` of `src/lib.rs` (the default, without the `chunk-10KB`
feature). -/
def CHUNK_SIZE : Nat := 1024

/-- The `[0; CHUNK_SIZE]` buffer after one `read`: a successful read of
`data` fills the first `data.length` cells (`read` never yields more than
the buffer holds) and leaves the rest zero; an errored read leaves the
buffer zero-filled. -/
def chunkBuffer (r : ReadResult) : List Byte :=
  match r with
  | .ok data => data.take CHUNK_SIZE ++ List.replicate (CHUNK_SIZE - data.length) 0
  | .err _ => List.replicate CHUNK_SIZE 0

/-- The body-streaming `loop` of `handle_proxy`, run against the sequence
of read results the upstream socket produces: log a read error (Info for
`ConnectionReset`, Error otherwise), collect the nonzero bytes of the
buffer, stop when none remain, otherwise write them to the client and
iterate. -/
def streamLoop : List ReadResult → List Event
  | [] => []
  | r :: rest =>
    let logs : List Event :=
      match r with
      | .err k =>
        [.logged (if k = .connectionReset then .info else .error) "Failed read chunk"]
      | .ok _ => []
    let buf := (chunkBuffer r).filter (fun b => b ≠ 0)
    if buf.isEmpty then logs
    else logs ++ .wroteClient buf :: streamLoop rest

/-- Behaviour of the upstream target as one `handle_proxy` job observes
it: whether `Http::connect` succeeds, the preamble `read_to_end` returns,
and the successive body-chunk read results. -/
structure UpstreamBehavior where
  connectOk : Bool
  headerBytes : List Byte
  bodyReads : List ReadResult

/-- Modelled from the spec: `prelude::change_header_host`, whose file is
not among the sources.  The spec describes it as the optional-result form
of `rewrite_host`: `None` when no Host line exists in the request text,
`Some` of the rewritten text otherwise ("return an optional result
(`Some(rewritten)` / `None` if no Host line existed)"). -/
def change_header_host (req : String) (target : String) : Option String :=
  match findHost req.data with
  | none => none
  | some _ => some (Headers.change_host req target)

/-- `Handler::handle_proxy`, as the trace of events one job performs,
given the client's request text and the upstream's behaviour: rewrite the
Host header (reject with 400 when absent, without touching the upstream),
connect to the target (reject with 502, flush and sleep on failure),
forward the rewritten request, relay the upstream preamble, then stream
the body. -/
def handle_proxy (target : String) (req : String) (up : UpstreamBehavior) : List Event :=
  .logged .info "handle proxy" ::
  match change_header_host req target with
  | none =>
    [.logged .warn "Header host is missing",
     .statusSet (Status.code .badRequest),
     .wroteClient (strBytes "Content-Length: 0\r\n\r\n")]
  | some headsN =>
    .connectAttempt ::
    if up.connectOk then
      .logged .info "write headers to target" ::
      .wroteUpstream (strBytes headsN) ::
      .logged .info "send headers to client" ::
      .wroteClient up.headerBytes ::
      streamLoop up.bodyReads
    else
      [.logged .warn "Failed proxy",
       .statusSet (Status.code .badGateway),
       .wroteClient (strBytes "Content-Length: 0\r\n\r\n"),
       .flushed,
       .slept 100]

/-- The chunks written to the client in a trace, in order. -/
def clientWrites : List Event → List (List Byte)
  | [] => []
  | .wroteClient bs :: rest => bs :: clientWrites rest
  | _ :: rest => clientWrites rest

/-- The zero-filtered payload of one read result: the nonzero bytes of a
successful chunk, nothing for an errored read.  Used to state what the
streaming loop forwards. -/
def zeroFiltered : ReadResult → List Byte
  | .ok data => data.filter (fun b => b ≠ 0)
  | .err _ => []

/-! ### Supporting lemmas: `replaceAll` step equations -/

theorem replaceAllF_fuel {pat sub : List Char} :
    ∀ {n m : Nat} {l : List Char}, l.length ≤ n → l.length ≤ m →
      replaceAllF pat sub n l = replaceAllF pat sub m l := by
  intro n
  induction n with
  | zero =>
    intro m l hn _
    have : l = [] := List.length_eq_zero.mp (Nat.le_zero.mp hn)
    subst this
    cases m <;> rfl
  | succ n' ih =>
    intro m l hn hm
    cases l with
    | nil => cases m <;> rfl
    | cons c rest =>
      cases m with
      | zero => simp at hm
      | succ m' =>
        show replaceAllF pat sub (n' + 1) (c :: rest) = replaceAllF pat sub (m' + 1) (c :: rest)
        cases pat with
        | nil => rfl
        | cons p ps =>
          simp only [replaceAllF]
          by_cases hpre : (p :: ps).isPrefixOf (c :: rest)
          · rw [if_pos hpre, if_pos hpre,
              ih (m := m') (l := rest.drop ps.length)
                (by simp only [List.length_drop]; simp at hn; omega)
                (by simp only [List.length_drop]; simp at hm; omega)]
          · rw [if_neg hpre, if_neg hpre,
              ih (m := m') (l := rest) (by simp at hn; omega) (by simp at hm; omega)]

theorem replaceAll_nil {pat sub : List Char} : replaceAll pat sub [] = [] := rfl

theorem replaceAll_cons_pos {p c : Char} {ps sub rest : List Char}
    (h : (p :: ps).isPrefixOf (c :: rest)) :
    replaceAll (p :: ps) sub (c :: rest) = sub ++ replaceAll (p :: ps) sub (rest.drop ps.length) := by
  show replaceAllF (p :: ps) sub (rest.length + 1) (c :: rest) = _
  simp only [replaceAllF, if_pos h]
  rw [replaceAllF_fuel (n := rest.length) (m := (rest.drop ps.length).length) (by simp) le_rfl]
  rfl

theorem replaceAll_cons_neg {p c : Char} {ps sub rest : List Char}
    (h : ¬ (p :: ps).isPrefixOf (c :: rest)) :
    replaceAll (p :: ps) sub (c :: rest) = c :: replaceAll (p :: ps) sub rest := by
  show replaceAllF (p :: ps) sub (rest.length + 1) (c :: rest) = _
  simp only [replaceAllF, if_neg h]
  rfl

/-! ### Supporting lemmas: leftmost scans -/

theorem scanFirst_eq_some_iff {f : List Char → Option (List Char)} {l m : List Char} :
    scanFirst f l = some m ↔
      ∃ i, i < l.length ∧ f (l.drop i) = some m ∧ ∀ j < i, f (l.drop j) = none := by
  induction l with
  | nil => simp [scanFirst]
  | cons c rest ih =>
    rw [scanFirst]
    cases hf : f (c :: rest) with
    | some m' =>
      simp only [Option.some.injEq]
      constructor
      · rintro rfl
        exact ⟨0, by simp, by simpa using hf, fun j hj => absurd hj (Nat.not_lt_zero j)⟩
      · rintro ⟨i, hi, hfi, hnone⟩
        cases i with
        | zero => rw [List.drop_zero] at hfi; rw [hf] at hfi; exact (Option.some.injEq _ _).mp hfi
        | succ i' =>
          have h0 : f (c :: rest) = none := by simpa using hnone 0 (Nat.succ_pos i')
          exact absurd h0 (by simp [hf])
    | none =>
      rw [ih]
      constructor
      · rintro ⟨i, hi, hfi, hnone⟩
        refine ⟨i + 1, by simpa using Nat.succ_lt_succ hi, by simpa using hfi, ?_⟩
        intro j hj
        cases j with
        | zero => simpa using hf
        | succ j' => simpa using hnone j' (Nat.lt_of_succ_lt_succ hj)
      · rintro ⟨i, hi, hfi, hnone⟩
        cases i with
        | zero => rw [List.drop_zero] at hfi; rw [hf] at hfi; exact absurd hfi (by simp)
        | succ i' =>
          refine ⟨i', by simpa using Nat.lt_of_succ_lt_succ hi, by simpa using hfi, ?_⟩
          intro j hj
          simpa using hnone (j + 1) (Nat.succ_lt_succ hj)

theorem scanFirst_eq_none_iff {f : List Char → Option (List Char)} {l : List Char} :
    scanFirst f l = none ↔ ∀ i < l.length, f (l.drop i) = none := by
  induction l with
  | nil => simp [scanFirst]
  | cons c rest ih =>
    rw [scanFirst]
    cases hf : f (c :: rest) with
    | some m' =>
      simp only [reduceCtorEq, false_iff, not_forall]
      exact ⟨0, by simp, by simp [hf]⟩
    | none =>
      rw [ih]
      constructor
      · intro h i hi
        cases i with
        | zero => simpa using hf
        | succ i' => simpa using h i' (Nat.lt_of_succ_lt_succ hi)
      · intro h i hi
        simpa using h (i + 1) (Nat.succ_lt_succ hi)

/-! ### Supporting lemmas: substring occurrence -/

theorem containsSub_iff {pat l : List Char} :
    containsSub pat l = true ↔ ∃ i, pat.isPrefixOf (l.drop i) := by
  induction l with
  | nil =>
    simp only [containsSub, List.isEmpty_iff, List.drop_nil]
    constructor
    · rintro rfl; exact ⟨0, by simp [List.isPrefixOf]⟩
    · rintro ⟨i, hi⟩
      cases pat with
      | nil => rfl
      | cons p ps => simp [List.isPrefixOf] at hi
  | cons c rest ih =>
    simp only [containsSub, Bool.or_eq_true, ih]
    constructor
    · rintro (h | ⟨i, hi⟩)
      · exact ⟨0, by simpa using h⟩
      · exact ⟨i + 1, by simpa using hi⟩
    · rintro ⟨i, hi⟩
      cases i with
      | zero => exact Or.inl (by simpa using hi)
      | succ i' => exact Or.inr ⟨i', by simpa using hi⟩

/-! ### Supporting lemmas: counting parsed lines (for C6) -/

theorem length_filterMap_le_length_filter {α β : Type} (f : α → Option β) (p : α → Bool)
    (l : List α) (h : ∀ x ∈ l, f x ≠ none → p x = true) :
    (l.filterMap f).length ≤ (l.filter p).length := by
  induction l with
  | nil => simp
  | cons x rest ih =>
    have ihr := ih (fun y hy => h y (List.mem_cons_of_mem x hy))
    cases hfx : f x with
    | none => cases hpx : p x <;> simp [List.filterMap_cons, List.filter_cons, hfx, hpx] <;> omega
    | some b =>
      have hpx : p x = true := h x (List.mem_cons_self x rest) (by simp [hfx])
      simp [List.filterMap_cons, List.filter_cons, hfx, hpx]
      omega

theorem lastSepPos_getElem {l : List Char} {j : Nat} (h : lastSepPos l = some j) :
    l[j]? = some ':' ∧ l[j + 1]? = some ' ' := by
  induction l generalizing j with
  | nil => simp [lastSepPos] at h
  | cons c rest ih =>
    rw [lastSepPos] at h
    cases hr : lastSepPos rest with
    | some j' =>
      rw [hr] at h
      simp only [Option.some.injEq] at h
      subst h
      simpa using ih hr
    | none =>
      rw [hr] at h
      by_cases hc : c = ':' && rest.head? == some ' '
      · simp only [hc, if_pos] at h
        simp only [Option.some.injEq] at h
        subst h
        simp only [Bool.and_eq_true, decide_eq_true_eq, beq_iff_eq] at hc
        refine ⟨by simp [hc.1], ?_⟩
        cases rest with
        | nil => simp at hc
        | cons r rs => simpa using hc.2
      · simp [hc] at h

theorem drop_eq_cons_cons {l : List Char} {j : Nat} {x y : Char}
    (h1 : l[j]? = some x) (h2 : l[j + 1]? = some y) :
    l.drop j = x :: y :: l.drop (j + 2) := by
  obtain ⟨hj, hx⟩ := List.getElem?_eq_some_iff.mp h1
  obtain ⟨hj1, hy⟩ := List.getElem?_eq_some_iff.mp h2
  rw [List.drop_eq_getElem_cons hj, List.drop_eq_getElem_cons hj1, hx, hy]

theorem isPrefixOf_drop_of_lastSepPos {l : List Char} {j : Nat} (h : lastSepPos l = some j) :
    [':', ' '].isPrefixOf (l.drop j) := by
  obtain ⟨h1, h2⟩ := lastSepPos_getElem h
  rw [List.isPrefixOf_iff_prefix, drop_eq_cons_cons h1 h2]
  exact ⟨l.drop (j + 2), rfl⟩

theorem nameMatch_eq_some {h nm : List Char} (hn : nameMatch h = some nm) :
    ∃ j, lastSepPos (h.takeWhile (fun c => c ≠ '\n')) = some j ∧ 1 ≤ j ∧
      nm = h.take (j + 2) := by
  cases hl : lastSepPos (h.takeWhile (fun c => c ≠ '\n')) with
  | none =>
    simp only [nameMatch, hl] at hn
    exact absurd hn (by simp)
  | some j =>
    simp only [nameMatch, hl] at hn
    by_cases hj : 1 ≤ j
    · rw [if_pos hj] at hn
      exact ⟨j, rfl, hj, ((Option.some.injEq _ _).mp hn).symm⟩
    · rw [if_neg hj] at hn
      exact absurd hn (by simp)

theorem parseLine_some_containsSub {h : List Char} {hd : Header}
    (hp : parseLine h = some hd) : containsSub [':', ' '] h = true := by
  unfold parseLine at hp
  cases hn : nameMatch h with
  | none => rw [hn] at hp; exact absurd hp (by simp)
  | some nm =>
    obtain ⟨j, hl, _, _⟩ := nameMatch_eq_some hn
    have hpre : [':', ' '].isPrefixOf ((h.takeWhile (fun c => c ≠ '\n')).drop j) :=
      isPrefixOf_drop_of_lastSepPos hl
    obtain ⟨t, ht⟩ := List.takeWhile_prefix (l := h) (fun c => c ≠ '\n')
    refine containsSub_iff.mpr ⟨j, ?_⟩
    rw [List.isPrefixOf_iff_prefix] at hpre ⊢
    have hjlt : j < (h.takeWhile (fun c => c ≠ '\n')).length :=
      (List.getElem?_eq_some_iff.mp (lastSepPos_getElem hl).1).1
    have hdrop : h.drop j = (h.takeWhile (fun c => c ≠ '\n')).drop j ++ t := by
      conv_lhs => rw [← ht]
      rw [List.drop_append_eq_append_drop, Nat.sub_eq_zero_of_le (Nat.le_of_lt hjlt),
        List.drop_zero]
    rw [hdrop]
    exact hpre.trans (List.prefix_append _ t)

theorem clMatchAt_eq_some_prefix {l m : List Char} (h : clMatchAt l = some m) :
    "ontent-".data.isPrefixOf (l.drop 1) := by
  cases l with
  | nil => simp [clMatchAt] at h
  | cons c0 r1 =>
    simp only [clMatchAt] at h
    by_cases h1 : (c0 = 'c' || c0 = 'C') && "ontent-".data.isPrefixOf r1
    · simpa using ((Bool.and_eq_true _ _).mp h1).2
    · rw [if_neg h1] at h
      exact absurd h (by simp)

theorem get_content_length_eq_none_of_no_token (raw : String)
    (h : containsSub "ontent-".data raw.data = false) :
    Headers.get_content_length raw = none := by
  unfold Headers.get_content_length
  cases hf : findCL raw.data with
  | none => rfl
  | some m =>
    exfalso
    have hf' : scanFirst clMatchAt raw.data = some m := hf
    obtain ⟨i, _, hmi, -⟩ := scanFirst_eq_some_iff.mp hf'
    have hpre := clMatchAt_eq_some_prefix hmi
    rw [List.drop_drop] at hpre
    exact absurd (containsSub_iff.mpr ⟨i + 1, hpre⟩) (by simp [h])

/-! ### Supporting lemmas: colon-spacing invariants (for C2) -/
theorem splitCRLF_ne_nil (l : List Char) : splitCRLF l ≠ [] := by
  induction l using splitCRLF.induct with
  | case1 => simp [splitCRLF]
  | case2 rest ih => simp [splitCRLF]
  | case3 c rest hne hnil ih => rw [splitCRLF.eq_3 c rest hne, hnil]; simp
  | case4 c rest hne h t heq ih => rw [splitCRLF.eq_3 c rest hne, heq]; simp

theorem colonSpaced_tail {c : Char} {l : List Char} (h : colonSpaced (c :: l) = true) :
    colonSpaced l = true := by
  simp [colonSpaced] at h
  exact h.2

theorem colonSpaced_cons_colon {l : List Char} (h : colonSpaced (':' :: l) = true) :
    l.head? = some ' ' := by
  simp [colonSpaced] at h
  exact h.1

theorem colonSpaced_splitCRLF {l : List Char} (h : colonSpaced l = true) :
    ∀ line ∈ splitCRLF l, colonSpaced line = true := by
  induction l using splitCRLF.induct with
  | case1 =>
    intro line hl
    simp only [splitCRLF, List.mem_singleton] at hl
    subst hl
    rfl
  | case2 rest ih =>
    intro line hl
    have hrest : colonSpaced rest = true := colonSpaced_tail (colonSpaced_tail h)
    rw [splitCRLF.eq_2] at hl
    rcases List.mem_cons.mp hl with rfl | hl'
    · rfl
    · exact ih hrest line hl'
  | case3 c rest hne hnil ih => exact absurd hnil (splitCRLF_ne_nil rest)
  | case4 c rest hne h1 t heq ih =>
    intro line hl
    have hrest : colonSpaced rest = true := colonSpaced_tail h
    have ihall := ih hrest
    rw [splitCRLF.eq_3 c rest hne, heq] at hl
    rcases List.mem_cons.mp hl with rfl | hline
    · have hh1 : colonSpaced h1 = true := ihall h1 (by rw [heq]; exact List.mem_cons_self _ _)
      by_cases hc : c = ':'
      · subst hc
        have hsp : rest.head? = some ' ' := colonSpaced_cons_colon h
        cases rest with
        | nil => simp at hsp
        | cons r0 r1 =>
          simp only [List.head?_cons, Option.some.injEq] at hsp
          subst hsp
          have hne' : ∀ r2 : List Char, (' ' : Char) = '\r' → r1 = '\n' :: r2 → False := by
            intro r2 hc' _
            exact absurd hc' (by decide)
          rw [splitCRLF.eq_3 ' ' r1 hne'] at heq
          have hh1head : h1.head? = some ' ' := by
            cases hs : splitCRLF r1 with
            | nil => exact absurd hs (splitCRLF_ne_nil r1)
            | cons hh tt =>
              rw [hs] at heq
              have : (' ' :: hh) = h1 := (List.cons.injEq _ _ _ _).mp heq |>.1
              rw [← this]
              rfl
          simp [colonSpaced, hh1head, hh1]
      · simp [colonSpaced, hc, hh1]
    · exact ihall line (by rw [heq]; exact List.mem_cons_of_mem _ hline)

theorem replaceAll_sep_colonfree :
    ∀ (m : List Char), colonSpaced m = true → ':' ∉ replaceAll [':', ' '] [] m := by
  suffices H : ∀ (n : Nat) (m : List Char), m.length ≤ n → colonSpaced m = true →
      ':' ∉ replaceAll [':', ' '] [] m from
    fun m h => H m.length m le_rfl h
  intro n
  induction n with
  | zero =>
    intro m hlen _
    have : m = [] := List.length_eq_zero.mp (Nat.le_zero.mp hlen)
    subst this
    rw [replaceAll_nil]
    simp
  | succ n' ih =>
    intro m hlen hcs
    cases m with
    | nil => rw [replaceAll_nil]; simp
    | cons c rest =>
      by_cases hpre : [':', ' '].isPrefixOf (c :: rest)
      · have hstruct : c = ':' ∧ ∃ r1, rest = ' ' :: r1 := by
          obtain ⟨t, ht⟩ := List.isPrefixOf_iff_prefix.mp hpre
          simp only [List.cons_append, List.nil_append, List.cons.injEq] at ht
          exact ⟨ht.1.symm, t, ht.2.symm⟩
        obtain ⟨rfl, r1, rfl⟩ := hstruct
        rw [show replaceAll [':', ' '] [] (':' :: ' ' :: r1) =
            [] ++ replaceAll [':', ' '] [] ((' ' :: r1).drop 1) from replaceAll_cons_pos hpre]
        simp only [List.nil_append, List.drop_succ_cons, List.drop_zero]
        exact ih r1 (by simp at hlen; omega) (colonSpaced_tail (colonSpaced_tail hcs))
      · rw [replaceAll_cons_neg hpre]
        intro hmem
        rcases List.mem_cons.mp hmem with rfl | hmem'
        · have hsp := colonSpaced_cons_colon hcs
          apply hpre
          rw [List.isPrefixOf_iff_prefix]
          cases rest with
          | nil => simp at hsp
          | cons r0 r1 =>
            simp only [List.head?_cons, Option.some.injEq] at hsp
            subst hsp
            exact ⟨r1, rfl⟩
        · exact ih rest (by simp at hlen; omega) (colonSpaced_tail hcs) hmem'

theorem colonSpaced_iff {l : List Char} :
    colonSpaced l = true ↔ ∀ i, l[i]? = some ':' → l[i + 1]? = some ' ' := by
  induction l with
  | nil => simp [colonSpaced]
  | cons c rest ih =>
    rw [show colonSpaced (c :: rest) =
      ((if c = ':' then rest.head? == some ' ' else true) && colonSpaced rest) from rfl,
      Bool.and_eq_true, ih]
    constructor
    · rintro ⟨h1, h2⟩ i hi
      cases i with
      | zero =>
        have hc : c = ':' := by simpa using hi
        subst hc
        rw [if_pos rfl, beq_iff_eq] at h1
        rw [List.getElem?_cons_succ, ← List.head?_eq_getElem?]
        exact h1
      | succ i' => simpa using h2 i' (by simpa using hi)
    · intro h
      refine ⟨?_, fun i hi => by simpa using h (i + 1) (by simpa using hi)⟩
      by_cases hc : c = ':'
      · subst hc
        rw [if_pos rfl, beq_iff_eq]
        have := h 0 (by simp)
        rw [List.getElem?_cons_succ, ← List.head?_eq_getElem?] at this
        exact this
      · rw [if_neg hc]

theorem IsPrefix.getElem?_some {l t : List Char} {i : Nat} {a : Char}
    (hp : l <+: t) (h : l[i]? = some a) : t[i]? = some a := by
  obtain ⟨s, rfl⟩ := hp
  have hi : i < l.length := (List.getElem?_eq_some_iff.mp h).1
  rw [List.getElem?_append, if_pos hi]
  exact h

theorem colonSpaced_nameMatch {h nm : List Char} (hcs : colonSpaced h = true)
    (hn : nameMatch h = some nm) : colonSpaced nm = true := by
  obtain ⟨j, hl, hj1, rfl⟩ := nameMatch_eq_some hn
  obtain ⟨hcolon, hspace⟩ := lastSepPos_getElem hl
  have hpre := List.takeWhile_prefix (l := h) (fun c => c ≠ '\n')
  have hcolon' : h[j]? = some ':' := IsPrefix.getElem?_some hpre hcolon
  have hspace' : h[j + 1]? = some ' ' := IsPrefix.getElem?_some hpre hspace
  rw [colonSpaced_iff]
  intro i hi
  rw [List.getElem?_take] at hi
  by_cases hlt : i < j + 2
  · rw [if_pos hlt] at hi
    have hine : i ≠ j + 1 := by
      intro heq
      rw [heq, hspace'] at hi
      simp at hi
    have hi2 : i + 1 < j + 2 := by omega
    rw [List.getElem?_take, if_pos hi2]
    exact colonSpaced_iff.mp hcs i hi
  · rw [if_neg hlt] at hi
    exact absurd hi (by simp)


/-! ### Supporting lemmas: the streaming loop -/

theorem streamLoop_ok_cons (d : List Byte) (rest : List ReadResult) :
    streamLoop (.ok d :: rest) =
      if ((chunkBuffer (.ok d)).filter (fun b => b ≠ 0)).isEmpty then []
      else .wroteClient ((chunkBuffer (.ok d)).filter (fun b => b ≠ 0)) :: streamLoop rest := by
  simp only [streamLoop, List.nil_append]

theorem filter_chunkBuffer_err (k : ErrKind) :
    (chunkBuffer (.err k)).filter (fun b => b ≠ 0) = [] := by
  simp [chunkBuffer, List.filter_replicate]

theorem streamLoop_err_cons (k : ErrKind) (rest : List ReadResult) :
    streamLoop (.err k :: rest) =
      [.logged (if k = .connectionReset then .info else .error) "Failed read chunk"] := by
  simp only [streamLoop, filter_chunkBuffer_err, List.isEmpty_nil, if_true]

/-! ### The claims -/

/-- C6: `parse` (`Headers::from_string`) is total; a line with no `": "`
separator contributes no entry to `list` (so the number of entries is
bounded by the number of lines containing the separator, and in particular
the request line never appears as a header): parsing
`"GET / HTTP/1.1\r\nHost: a\r\n\r\n"` yields exactly the one header
`{name: "Host", value: "a"}`. -/
theorem c6_no_separator_line_contributes_nothing :
    (Headers.from_string "GET / HTTP/1.1\r\nHost: a\r\n\r\n").list = [⟨"Host", "a"⟩] ∧
    ∀ raw : String, (Headers.from_string raw).list.length ≤
      ((splitCRLF raw.data).filter (fun h => containsSub ": ".data h)).length := by
  refine ⟨by decide, fun raw => ?_⟩
  exact length_filterMap_le_length_filter parseLine _ _
    (fun x _ hx => by
      obtain ⟨hd, hhd⟩ := Option.ne_none_iff_exists'.mp hx
      exact parseLine_some_containsSub hhd)

/-- C8: `content_length` (`Headers::get_content_length`) matches a
content-length token whose two word-initial letters are case-insensitive
(the rest of the token is lowercase-literal), followed by whitespace and
digits, parses the digit run and returns `none` when the token is absent
(in particular when the text nowhere contains `"ontent-"`) or the digits
do not fit a `u32`:  `content_length("Content-Length: 42\r\n") = some 42`,
`content_length("content-length:7") = some 7`, `content_length("X: y") =
none`. -/
theorem c8_get_content_length_spec :
    Headers.get_content_length "Content-Length: 42\r\n" = some 42 ∧
    Headers.get_content_length "content-length:7" = some 7 ∧
    Headers.get_content_length "X: y" = none ∧
    Headers.get_content_length "Content-length: 007" = some 7 ∧
    Headers.get_content_length "content-Length:8" = some 8 ∧
    Headers.get_content_length "CONTENT-LENGTH: 9" = none ∧
    Headers.get_content_length "Content-Length: 99999999999" = none ∧
    ∀ raw : String, containsSub "ontent-".data raw.data = false →
      Headers.get_content_length raw = none := by
  exact ⟨by decide, by decide, by decide, by decide, by decide, by decide, by decide,
    get_content_length_eq_none_of_no_token⟩

/-- C4 counterexample: a read error DOES immediately terminate the
body-streaming loop.  With the read results `[Err ConnectionReset, Ok
[1,2,3]]` the whole loop trace is the one informational log entry: the
second chunk is never read and its bytes are never forwarded, refuting
"the loop then attempts another chunk read". -/
theorem c4_counterexample_error_ends_loop :
    streamLoop [.err .connectionReset, .ok [1, 2, 3]] =
      [.logged .info "Failed read chunk"] := by
  rw [streamLoop_err_cons]
  rfl

/-- C4 amended: a read error in the body-streaming loop is logged at
informational severity when it is a connection reset and at error
severity otherwise, and the loop then terminates at once — the chunk
buffer is left zero-filled, so the zero-filter leaves nothing, the loop
breaks, and no further chunk read is attempted whatever results follow. -/
theorem c4_read_error_logged_then_loop_stops (k : ErrKind) (rest : List ReadResult) :
    streamLoop (.err k :: rest) =
      [.logged (if k = .connectionReset then .info else .error) "Failed read chunk"] :=
  streamLoop_err_cons k rest

/-- C7: the body-streaming loop forwards every chunk with its zero bytes
removed and stops exactly at the first chunk that is empty after
zero-filtering (an errored read leaves the buffer all-zero and likewise
stops it): the client writes are the zero-filtered chunks up to, and not
including, the first empty one — once such a chunk is observed nothing
further is written. -/
theorem c7_stream_writes_zero_filtered_chunks (rs : List ReadResult)
    (h : ∀ d, ReadResult.ok d ∈ rs → d.length ≤ CHUNK_SIZE) :
    clientWrites (streamLoop rs) = (rs.map zeroFiltered).takeWhile (fun l => !l.isEmpty) := by
  induction rs with
  | nil => simp [streamLoop, clientWrites]
  | cons r rest ih =>
    have ihr := ih (fun d hd => h d (List.mem_cons_of_mem r hd))
    cases r with
    | ok d =>
      have hd : d.length ≤ CHUNK_SIZE := h d (List.mem_cons_self _ _)
      have hbuf : (chunkBuffer (.ok d)).filter (fun b => b ≠ 0) = d.filter (fun b => b ≠ 0) := by
        simp [chunkBuffer, List.filter_append, List.take_of_length_le hd,
          List.filter_replicate]
      have hzf : zeroFiltered (.ok d) = d.filter (fun b => b ≠ 0) := rfl
      rw [streamLoop_ok_cons, hbuf, List.map_cons, List.takeWhile_cons, hzf]
      by_cases he : (d.filter (fun b => b ≠ 0)).isEmpty
      · rw [if_pos he, he]
        rfl
      · have hx : (d.filter (fun b => b ≠ 0)).isEmpty = false := Bool.eq_false_iff.mpr he
        rw [if_neg he, hx]
        show (d.filter (fun b => b ≠ 0)) :: clientWrites (streamLoop rest) = _
        rw [ihr]
        rfl
    | err k =>
      rw [streamLoop_err_cons, List.map_cons, List.takeWhile_cons]
      rfl

/-- C7 witness: on the concrete read sequence `[Ok [1,0,2], Ok [], Ok
[9]]` the loop writes exactly the zero-filtered first chunk `[1,2]` and
stops at the second (empty) chunk, never forwarding `[9]`. -/
theorem c7_witness :
    clientWrites (streamLoop [ReadResult.ok [1, 0, 2], .ok [], .ok [9]]) = [[1, 2]] := by
  rw [c7_stream_writes_zero_filtered_chunks [ReadResult.ok [1, 0, 2], .ok [], .ok [9]]
    (by intro d hd; simp at hd; rcases hd with rfl | rfl | rfl <;> simp [CHUNK_SIZE])]
  decide

/-- C1: when the client's request has no Host line, the handler logs a
warning, sets the response status to 400, writes exactly
`"Content-Length: 0\r\n\r\n"` (the zero-length terminator and blank line,
no body) to the client and ends the job; no connection to the upstream
target is ever attempted, whatever the upstream's behaviour. -/
theorem c1_missing_host_rejects_with_400 (target req : String) (up : UpstreamBehavior)
    (h : findHost req.data = none) :
    handle_proxy target req up =
      [.logged .info "handle proxy",
       .logged .warn "Header host is missing",
       .statusSet 400,
       .wroteClient (strBytes "Content-Length: 0\r\n\r\n")] ∧
    Event.connectAttempt ∉ handle_proxy target req up := by
  have hch : change_header_host req target = none := by
    unfold change_header_host
    rw [h]
  have htrace : handle_proxy target req up =
      [.logged .info "handle proxy",
       .logged .warn "Header host is missing",
       .statusSet 400,
       .wroteClient (strBytes "Content-Length: 0\r\n\r\n")] := by
    simp [handle_proxy, hch, Status.code]
  exact ⟨htrace, by rw [htrace]; simp⟩

/-- C1 witness: a concrete hostless request (`"GET / HTTP/1.1\r\n\r\n"`)
is answered with the 400 trace and no upstream connection attempt, even
though the upstream would accept. -/
theorem c1_witness :
    handle_proxy "127.0.0.1:3001" "GET / HTTP/1.1\r\n\r\n" ⟨true, [], []⟩ =
      [.logged .info "handle proxy",
       .logged .warn "Header host is missing",
       .statusSet 400,
       .wroteClient (strBytes "Content-Length: 0\r\n\r\n")] ∧
    Event.connectAttempt ∉
      handle_proxy "127.0.0.1:3001" "GET / HTTP/1.1\r\n\r\n" ⟨true, [], []⟩ :=
  c1_missing_host_rejects_with_400 "127.0.0.1:3001" "GET / HTTP/1.1\r\n\r\n"
    ⟨true, [], []⟩ (by decide)

/-- C2 counterexample: a header name CAN contain a colon.  For the input
`"a:b: c"` (a colon not followed by a space before the separator), the
parsed list is `[{name: "a:b", value: ":bc"}]`, whose name contains `:`. -/
theorem c2_counterexample_name_contains_colon :
    (Headers.from_string "a:b: c").list = [⟨"a:b", ":bc"⟩] ∧
    ∃ hd ∈ (Headers.from_string "a:b: c").list, ':' ∈ hd.name.data := by
  decide

/-- C2 amended: on every input in which each colon is immediately followed
by a space character, every parsed header has a colon-free name; the value
may be the empty string (e.g. parsing `"a: b\nc"` yields one header with
name `"a"` and empty value). -/
theorem c2_amended_names_colon_free :
    (∀ raw : String, colonSpaced raw.data = true →
      ∀ hd ∈ (Headers.from_string raw).list, ':' ∉ hd.name.data) ∧
    (Headers.from_string "a: b\nc").list = [⟨"a", ""⟩] := by
  refine ⟨?_, by decide⟩
  intro raw hcs hd hmem
  obtain ⟨line, hline, hparse⟩ := List.mem_filterMap.mp hmem
  have hlcs := colonSpaced_splitCRLF hcs line hline
  cases hn : nameMatch line with
  | none => simp [parseLine, hn] at hparse
  | some nm =>
    have hnmcs := colonSpaced_nameMatch hlcs hn
    have hname : hd.name.data = replaceAll [':', ' '] [] nm := by
      simp only [parseLine, hn] at hparse
      cases hv : valueSuffix line with
      | none =>
        rw [hv] at hparse
        simp only [Option.some.injEq] at hparse
        rw [← hparse]
      | some vm =>
        rw [hv] at hparse
        simp only [Option.some.injEq] at hparse
        rw [← hparse]
    rw [hname]
    exact replaceAll_sep_colonfree nm hnmcs


/-! ### Supporting lemmas: split-point computation (for C3) -/

theorem isPrefixOf_sep_cons {x : Char} {xs : List Char} (hx : x ≠ ':') :
    [':', ' '].isPrefixOf (x :: xs) = false := by
  by_contra hcon
  have := List.isPrefixOf_iff_prefix.mp (Bool.of_not_eq_false hcon)
  obtain ⟨t, ht⟩ := this
  simp only [List.cons_append, List.nil_append, List.cons.injEq] at ht
  exact hx ht.1.symm

theorem splitCRLF_no_cr {l : List Char} (h : '\r' ∉ l) : splitCRLF l = [l] := by
  induction l using splitCRLF.induct with
  | case1 => rfl
  | case2 rest ih => exact absurd (List.mem_cons_self _ _) h
  | case3 c rest hne hnil ih => exact absurd hnil (splitCRLF_ne_nil rest)
  | case4 c rest hne h1 t heq ih =>
    have hr : '\r' ∉ rest := fun hx => h (List.mem_cons_of_mem c hx)
    rw [splitCRLF.eq_3 c rest hne, ih hr]

theorem lastSepPos_cons (x : Char) (l : List Char) :
    lastSepPos (x :: l) =
      match lastSepPos l with
      | some j => some (j + 1)
      | none => if x = ':' && l.head? == some ' ' then some 0 else none := rfl

theorem lastSepPos_none_of_no_colon {l : List Char} (h : ':' ∉ l) : lastSepPos l = none := by
  induction l with
  | nil => rfl
  | cons x rest ih =>
    have hx : x ≠ ':' := fun hc => h (hc ▸ List.mem_cons_self x rest)
    have hr := ih (fun hm => h (List.mem_cons_of_mem x hm))
    rw [lastSepPos_cons, hr]
    simp [hx]

theorem lastSepPos_append_no_colon {a l : List Char} (ha : ':' ∉ a) :
    lastSepPos (a ++ l) = (lastSepPos l).map (· + a.length) := by
  induction a with
  | nil => cases hl : lastSepPos l <;> simp [hl]
  | cons x a2 ih =>
    have hx : x ≠ ':' := fun hc => ha (hc ▸ List.mem_cons_self x a2)
    have ha2 : ':' ∉ a2 := fun hm => ha (List.mem_cons_of_mem x hm)
    rw [List.cons_append, lastSepPos_cons, ih ha2]
    cases hl : lastSepPos l with
    | none => simp [hx]
    | some j =>
      simp only [Option.map_some, List.length_cons]
      refine congrArg some ?_
      show j + a2.length + 1 = j + (a2.length + 1)
      omega

theorem lastSepPos_line {a b c : List Char} (ha : ':' ∉ a) (hb : ':' ∉ b) (hc : ':' ∉ c) :
    lastSepPos (a ++ ':' :: ' ' :: (b ++ ':' :: ' ' :: c)) =
      some (b.length + 2 + a.length) := by
  have hinner2 : lastSepPos (':' :: ' ' :: c) = some 0 := by
    rw [lastSepPos_cons, lastSepPos_cons, lastSepPos_none_of_no_colon hc]
    simp
  have hinner : lastSepPos (b ++ ':' :: ' ' :: c) = some b.length := by
    rw [lastSepPos_append_no_colon hb, hinner2]
    simp
  have houter : lastSepPos (':' :: ' ' :: (b ++ ':' :: ' ' :: c)) = some (b.length + 2) := by
    rw [lastSepPos_cons, show lastSepPos (' ' :: (b ++ ':' :: ' ' :: c)) =
      some (b.length + 1) from by rw [lastSepPos_cons, hinner]]
  rw [lastSepPos_append_no_colon ha, houter]
  rfl

theorem replaceAll_sep_append_no_colon {a l : List Char} (sub : List Char) (ha : ':' ∉ a) :
    replaceAll [':', ' '] sub (a ++ l) = a ++ replaceAll [':', ' '] sub l := by
  induction a with
  | nil => rfl
  | cons x a2 ih =>
    have hx : x ≠ ':' := fun hcx => ha (hcx ▸ List.mem_cons_self x a2)
    have ha2 : ':' ∉ a2 := fun hm => ha (List.mem_cons_of_mem x hm)
    rw [List.cons_append, replaceAll_cons_neg (by simp [isPrefixOf_sep_cons hx]), ih ha2]
    rfl

theorem replaceAll_sep_cons_sep (l : List Char) :
    replaceAll [':', ' '] [] (':' :: ' ' :: l) = replaceAll [':', ' '] [] l := by
  rw [replaceAll_cons_pos (by rw [List.isPrefixOf_iff_prefix]; exact ⟨l, rfl⟩)]
  rfl

theorem replaceAll_sep_no_colon {l : List Char} (h : ':' ∉ l) :
    replaceAll [':', ' '] [] l = l := by
  induction l with
  | nil => rfl
  | cons x l2 ih =>
    have hx : x ≠ ':' := fun hcx => h (hcx ▸ List.mem_cons_self x l2)
    have hl2 : ':' ∉ l2 := fun hm => h (List.mem_cons_of_mem x hm)
    rw [replaceAll_cons_neg (by simp [isPrefixOf_sep_cons hx]), ih hl2]

theorem valueSuffix_cons (x : Char) (l : List Char) :
    valueSuffix (x :: l) =
      if x = ':' && !(l.contains '\n') then some (x :: l) else valueSuffix l := rfl

theorem valueSuffix_append_no_colon {a l : List Char} (ha : ':' ∉ a) :
    valueSuffix (a ++ l) = valueSuffix l := by
  induction a with
  | nil => rfl
  | cons x a2 ih =>
    have hx : x ≠ ':' := fun hcx => ha (hcx ▸ List.mem_cons_self x a2)
    have ha2 : ':' ∉ a2 := fun hm => ha (List.mem_cons_of_mem x hm)
    rw [List.cons_append, valueSuffix_cons, if_neg (by simp [hx]), ih ha2]

theorem valueSuffix_colon_clean {l : List Char} (h : '\n' ∉ l) :
    valueSuffix (':' :: l) = some (':' :: l) := by
  rw [valueSuffix_cons, if_pos (by simp [h])]

/-- C3 counterexample: on the line `"a: b: c"` (two `": "` separators) the
parser does NOT split at the first colon for both sides: it produces the
single header `{name: "ab", value: "bc"}` — the name comes from the text
before the LAST separator with every `": "` deleted, not the text before
the first separator, and the value has its embedded `": "` deleted rather
than preserved. -/
theorem c3_counterexample_not_first_colon_split :
    (Headers.from_string "a: b: c").list = [⟨"ab", "bc"⟩] ∧
    (Headers.from_string "a: b: c").list ≠ [⟨"a", "b: c"⟩] := by
  decide

/-- C3 amended: for a line with two `": "` separators — `a ++ ": " ++ b ++
": " ++ c` with `a`, `b`, `c` free of colons and line terminators, and the
value pieces `b`, `c` ASCII — the parser produces one header whose name is
the text before the LAST separator with both separators deleted (`a ++ b`)
and whose value is the text from the FIRST colon to the end of the line
with every `": "` deleted and the rest lowercased (`(b ++ c)` lowercased).
(The ASCII bound on `b` and `c` is the fidelity domain of the embedded
lowercasing: `str::to_lowercase` is Unicode-aware, the model's `lowerStr`
is ASCII-only.) -/
theorem c3_amended_last_sep_name_first_colon_value
    (a b c : List Char)
    (ha : ∀ x ∈ a, x ≠ ':' ∧ x ≠ '\r' ∧ x ≠ '\n')
    (hb : ∀ x ∈ b, x ≠ ':' ∧ x ≠ '\r' ∧ x ≠ '\n')
    (hc : ∀ x ∈ c, x ≠ ':' ∧ x ≠ '\r' ∧ x ≠ '\n')
    (hascii : ∀ x ∈ b ++ c, x.toNat < 128) :
    (Headers.from_string ⟨a ++ ':' :: ' ' :: (b ++ ':' :: ' ' :: c)⟩).list =
      [⟨⟨a ++ b⟩, ⟨lowerStr (b ++ c)⟩⟩] := by
  have haC : ':' ∉ a := fun hm => (ha _ hm).1 rfl
  have hbC : ':' ∉ b := fun hm => (hb _ hm).1 rfl
  have hcC : ':' ∉ c := fun hm => (hc _ hm).1 rfl
  set line : List Char := a ++ ':' :: ' ' :: (b ++ ':' :: ' ' :: c) with hline
  have hlineR : '\r' ∉ line := by
    intro hm
    simp only [hline, List.mem_append, List.mem_cons] at hm
    rcases hm with hm1 | hm2 | hm2 | hm4 | hm2 | hm2 | hm6
    · exact (ha _ hm1).2.1 rfl
    · exact absurd hm2 (by decide)
    · exact absurd hm2 (by decide)
    · exact (hb _ hm4).2.1 rfl
    · exact absurd hm2 (by decide)
    · exact absurd hm2 (by decide)
    · exact (hc _ hm6).2.1 rfl
  have hlineN : '\n' ∉ line := by
    intro hm
    simp only [hline, List.mem_append, List.mem_cons] at hm
    rcases hm with hm1 | hm2 | hm2 | hm4 | hm2 | hm2 | hm6
    · exact (ha _ hm1).2.2 rfl
    · exact absurd hm2 (by decide)
    · exact absurd hm2 (by decide)
    · exact (hb _ hm4).2.2 rfl
    · exact absurd hm2 (by decide)
    · exact absurd hm2 (by decide)
    · exact (hc _ hm6).2.2 rfl
  have hsplit : splitCRLF line = [line] := splitCRLF_no_cr hlineR
  have htw : line.takeWhile (fun ch => ch ≠ '\n') = line :=
    List.takeWhile_eq_self_iff.mpr (fun x hx => by
      simp only [decide_eq_true_eq]
      exact fun hxe => hlineN (hxe ▸ hx))
  have hlsp : lastSepPos line = some (b.length + 2 + a.length) :=
    lastSepPos_line haC hbC hcC
  have htake : line.take (b.length + 2 + a.length + 2) =
      a ++ ':' :: ' ' :: (b ++ [':', ' ']) := by
    rw [hline, List.take_append_eq_append_take,
      List.take_of_length_le (by omega)]
    congr 1
    rw [show b.length + 2 + a.length + 2 - a.length = b.length + 2 + 2 from by omega,
      show b.length + 2 + 2 = (b.length + 2 + 1) + 1 from rfl, List.take_succ_cons,
      show b.length + 2 + 1 = (b.length + 2) + 1 from rfl, List.take_succ_cons]
    congr 1
    congr 1
    rw [List.take_append_eq_append_take, List.take_of_length_le (by omega),
      show b.length + 2 - b.length = 2 from by omega]
    rfl
  have hnm : nameMatch line = some (a ++ ':' :: ' ' :: (b ++ [':', ' '])) := by
    have h1 : (1 : Nat) ≤ b.length + 2 + a.length := by omega
    simp only [nameMatch, htw, hlsp]
    rw [if_pos h1, htake]
  have hname : replaceAll [':', ' '] [] (a ++ ':' :: ' ' :: (b ++ [':', ' '])) = a ++ b := by
    rw [replaceAll_sep_append_no_colon _ haC, replaceAll_sep_cons_sep,
      replaceAll_sep_append_no_colon _ hbC, replaceAll_sep_cons_sep, replaceAll_nil,
      List.append_nil]
  have hvs : valueSuffix line = some (':' :: ' ' :: (b ++ ':' :: ' ' :: c)) := by
    rw [hline, valueSuffix_append_no_colon haC]
    apply valueSuffix_colon_clean
    intro hm
    simp only [List.mem_cons, List.mem_append] at hm
    rcases hm with hm2 | hm4 | hm2 | hm2 | hm6
    · exact absurd hm2 (by decide)
    · exact (hb _ hm4).2.2 rfl
    · exact absurd hm2 (by decide)
    · exact absurd hm2 (by decide)
    · exact (hc _ hm6).2.2 rfl
  have hval : replaceAll [':', ' '] [] (':' :: ' ' :: (b ++ ':' :: ' ' :: c)) = b ++ c := by
    rw [replaceAll_sep_cons_sep, replaceAll_sep_append_no_colon _ hbC,
      replaceAll_sep_cons_sep, replaceAll_sep_no_colon hcC]
  show ((splitCRLF line).filterMap parseLine) = _
  rw [hsplit]
  simp only [List.filterMap_cons, List.filterMap_nil, parseLine, hnm, hvs]
  rw [show replaceAll ": ".data [] (a ++ ':' :: ' ' :: (b ++ [':', ' '])) = a ++ b from hname,
    show replaceAll ": ".data [] (':' :: ' ' :: (b ++ ':' :: ' ' :: c)) = b ++ c from hval]

/-- C3 witness: the amended statement at `a = "a"`, `b = "b"`, `c = "c"`:
parsing the line `"a: b: c"` yields `{name: "ab", value: "bc"}`. -/
theorem c3_witness : (Headers.from_string "a: b: c").list = [⟨"ab", "bc"⟩] := by
  have h := c3_amended_last_sep_name_first_colon_value ['a'] ['b'] ['c']
    (by decide) (by decide) (by decide) (by decide)
  exact h.trans (by decide)


/-! ### Supporting lemmas: the default sentinels (for C10) -/

theorem takeWhile_decomp (p : Char → Bool) (l : List Char) :
    l = l.takeWhile p ++ l.drop (l.takeWhile p).length := by
  obtain ⟨t, ht⟩ := List.takeWhile_prefix (l := l) p
  have hd : l.drop (l.takeWhile p).length = t := by
    nth_rewrite 2 [← ht]
    rw [List.drop_left]
  rw [hd]
  exact ht.symm

theorem head?_decomp {l : List Char} {x : Char} (h : l.head? = some x) :
    l = x :: l.drop 1 := by
  cases l with
  | nil => simp at h
  | cons y t =>
    simp only [List.head?_cons, Option.some.injEq] at h
    subst h
    rfl

theorem prefix_decomp_of_isPrefixOf {p l : List Char} (h : p.isPrefixOf l) :
    l = p ++ l.drop p.length := by
  obtain ⟨t, ht⟩ := List.isPrefixOf_iff_prefix.mp h
  have hd : l.drop p.length = t := by
    rw [← ht, List.drop_left]
  rw [hd]
  exact ht.symm

theorem protoTail_decomp {r t : List Char} (h : protoTail r = some t) :
    ∃ d1 d2 post, r = '/' :: (d1 ++ '.' :: (d2 ++ post)) ∧
      d1 ≠ [] ∧ (∀ x ∈ d1, x.isDigit = true) ∧ d2 ≠ [] ∧ (∀ x ∈ d2, x.isDigit = true) := by
  cases r with
  | nil => exact absurd h (by simp [protoTail])
  | cons c r2 =>
    simp only [protoTail] at h
    by_cases hc : c = '/'
    · rw [if_pos hc] at h
      by_cases h1 : (r2.takeWhile Char.isDigit).isEmpty
      · rw [if_pos h1] at h
        exact absurd h (by simp)
      · rw [if_neg h1] at h
        by_cases hdot : (r2.drop (r2.takeWhile Char.isDigit).length).head? = some '.'
        · rw [if_pos hdot] at h
          by_cases h2 :
              (((r2.drop (r2.takeWhile Char.isDigit).length).drop 1).takeWhile Char.isDigit).isEmpty
          · rw [if_pos h2] at h
            exact absurd h (by simp)
          · rw [if_neg h2] at h
            subst hc
            set rest := r2.drop (r2.takeWhile Char.isDigit).length with hrest
            set r3 := rest.drop 1 with hr3
            refine ⟨r2.takeWhile Char.isDigit, r3.takeWhile Char.isDigit,
              r3.drop (r3.takeWhile Char.isDigit).length, ?_, ?_, ?_, ?_, ?_⟩
            · rw [List.cons.injEq]
              refine ⟨rfl, ?_⟩
              conv_lhs => rw [takeWhile_decomp Char.isDigit r2]
              rw [← hrest, head?_decomp hdot, ← hr3]
              congr 1
              rw [List.cons.injEq]
              exact ⟨rfl, takeWhile_decomp Char.isDigit r3⟩
            · simpa using h1
            · exact fun x hx => List.mem_takeWhile_imp hx
            · simpa using h2
            · exact fun x hx => List.mem_takeWhile_imp hx
        · rw [if_neg hdot] at h
          exact absurd h (by simp)
    · rw [if_neg hc] at h
      exact absurd h (by simp)

theorem protoMatchAt_decomp {u m : List Char} (h : protoMatchAt u = some m) :
    ∃ s d1 d2 post, u = "HTTP".data ++ (s ++ '/' :: (d1 ++ '.' :: (d2 ++ post))) ∧
      (s = [] ∨ s = ['S']) ∧ d1 ≠ [] ∧ (∀ x ∈ d1, x.isDigit = true) ∧
      d2 ≠ [] ∧ (∀ x ∈ d2, x.isDigit = true) := by
  simp only [protoMatchAt] at h
  by_cases hp : "HTTP".data.isPrefixOf u
  · rw [if_pos hp] at h
    have hu : u = "HTTP".data ++ u.drop 4 := prefix_decomp_of_isPrefixOf hp
    by_cases hs : (u.drop 4).head? = some 'S'
    · rw [if_pos hs] at h
      cases hpt : protoTail ((u.drop 4).drop 1) with
      | some t =>
        obtain ⟨d1, d2, post, hdec, h1, h2, h3, h4⟩ := protoTail_decomp hpt
        refine ⟨['S'], d1, d2, post, ?_, Or.inr rfl, h1, h2, h3, h4⟩
        rw [hu]
        congr 1
        rw [head?_decomp hs, ← hdec]
        rfl
      | none =>
        rw [hpt] at h
        cases hpt2 : protoTail (u.drop 4) with
        | some t =>
          obtain ⟨d1, d2, post, hdec, h1, h2, h3, h4⟩ := protoTail_decomp hpt2
          refine ⟨[], d1, d2, post, ?_, Or.inl rfl, h1, h2, h3, h4⟩
          rw [hu, ← hdec]
          rfl
        | none => rw [hpt2] at h; exact absurd h (by simp)
    · rw [if_neg hs] at h
      cases hpt2 : protoTail (u.drop 4) with
      | some t =>
        obtain ⟨d1, d2, post, hdec, h1, h2, h3, h4⟩ := protoTail_decomp hpt2
        refine ⟨[], d1, d2, post, ?_, Or.inl rfl, h1, h2, h3, h4⟩
        rw [hu, ← hdec]
        rfl
      | none => rw [hpt2] at h; exact absurd h (by simp)
  · rw [if_neg hp] at h
    exact absurd h (by simp)

theorem findWordRun_eq_none {l : List Char} (h : ∀ ch ∈ l, isWordChar ch = false) :
    findWordRun l = none := by
  show scanFirst wordMatchAt l = none
  rw [scanFirst_eq_none_iff]
  intro i hi
  rw [List.drop_eq_getElem_cons hi]
  have hmem : l[i] ∈ l := List.getElem_mem hi
  simp [wordMatchAt, h _ hmem]

theorem findProto_eq_none {l : List Char}
    (h : ¬ ∃ pre s d1 d2 post,
      l = pre ++ ("HTTP".data ++ (s ++ '/' :: (d1 ++ '.' :: (d2 ++ post)))) ∧
      (s = [] ∨ s = ['S']) ∧ d1 ≠ [] ∧ (∀ x ∈ d1, x.isDigit = true) ∧
      d2 ≠ [] ∧ (∀ x ∈ d2, x.isDigit = true)) :
    findProto l = none := by
  cases hf : findProto l with
  | none => rfl
  | some m =>
    exfalso
    have hf' : scanFirst protoMatchAt l = some m := hf
    obtain ⟨i, _, hmi, -⟩ := scanFirst_eq_some_iff.mp hf'
    obtain ⟨s, d1, d2, post, hdec, hs, h1, h2, h3, h4⟩ := protoMatchAt_decomp hmi
    exact h ⟨l.take i, s, d1, d2, post, by rw [← hdec, List.take_append_drop], hs, h1, h2, h3, h4⟩

/-- C10: both extractors default to the literal sentinel `"OPTIONS"`: for
an ASCII input containing no word character, `get_method` returns
`"OPTIONS"`, and for an ASCII input containing no `HTTP`- or
`HTTPS`-with-dotted-version token, `get_protocol` also returns
`"OPTIONS"`.  (The ASCII bound is the fidelity domain of the embedded
`\w`/`\d` classes, which are Unicode-aware in the `regex` crate.) -/
theorem c10_options_sentinel (raw : String) (hascii : ∀ ch ∈ raw.data, ch.toNat < 128) :
    ((∀ ch ∈ raw.data, isWordChar ch = false) → Headers.get_method raw = "OPTIONS") ∧
    ((¬ ∃ pre s d1 d2 post,
        raw.data = pre ++ ("HTTP".data ++ (s ++ '/' :: (d1 ++ '.' :: (d2 ++ post)))) ∧
        (s = [] ∨ s = ['S']) ∧ d1 ≠ [] ∧ (∀ x ∈ d1, x.isDigit = true) ∧
        d2 ≠ [] ∧ (∀ x ∈ d2, x.isDigit = true)) →
      Headers.get_protocol raw = "OPTIONS") := by
  constructor
  · intro h
    rw [Headers.get_method, findWordRun_eq_none h]
  · intro h
    rw [Headers.get_protocol, findProto_eq_none h]

/-- C10 witness: on the concrete input `"++--**"` (ASCII, no word
characters, no protocol token) both extractors return `"OPTIONS"`. -/
theorem c10_witness :
    Headers.get_method "++--**" = "OPTIONS" ∧ Headers.get_protocol "++--**" = "OPTIONS" := by
  have h := c10_options_sentinel "++--**" (by decide)
  refine ⟨h.1 (by decide), h.2 ?_⟩
  rintro ⟨pre, s, d1, d2, post, heq, hs, hne1, -, hne2, -⟩
  have hlen := congrArg List.length heq
  simp only [List.length_append, List.length_cons, String.length] at hlen
  have hd1 : 1 ≤ d1.length := List.length_pos.mpr hne1
  have hd2 : 1 ≤ d2.length := List.length_pos.mpr hne2
  have hsl : s.length ≤ 1 := by rcases hs with rfl | rfl <;> simp
  have : ("++--**".data).length = 6 := by decide
  omega

/-! ### Supporting lemmas: `replaceAll` and occurrences (for C5) -/

theorem replaceAll_self (pat : List Char) : ∀ l : List Char, replaceAll pat pat l = l := by
  suffices H : ∀ (n : Nat) (l : List Char), l.length ≤ n → replaceAll pat pat l = l from
    fun l => H l.length l le_rfl
  intro n
  induction n with
  | zero =>
    intro l hl
    have : l = [] := List.length_eq_zero.mp (Nat.le_zero.mp hl)
    subst this
    rfl
  | succ n' ih =>
    intro l hl
    cases l with
    | nil => rfl
    | cons c rest =>
      cases pat with
      | nil => rfl
      | cons p ps =>
        by_cases hpre : (p :: ps).isPrefixOf (c :: rest)
        · rw [replaceAll_cons_pos hpre]
          obtain ⟨t, ht⟩ := List.isPrefixOf_iff_prefix.mp hpre
          have hdrop : rest.drop ps.length = t := by
            have h2 : ((p :: ps) ++ t).drop (p :: ps).length = t := List.drop_left _ _
            rw [ht] at h2
            simpa using h2
          rw [hdrop, ih t ?_]
          · exact ht
          · have := congrArg List.length ht
            simp at this hl
            omega
        · rw [replaceAll_cons_neg hpre, ih rest (by simp at hl; omega)]

theorem replaceAll_no_occ {pat sub : List Char} :
    ∀ l : List Char, (∀ j, ¬ pat.isPrefixOf (l.drop j)) → replaceAll pat sub l = l := by
  intro l
  induction l with
  | nil => intro _; rfl
  | cons c rest ih =>
    intro h
    cases pat with
    | nil => rfl
    | cons p ps =>
      have h0 : ¬ (p :: ps).isPrefixOf (c :: rest) := by simpa using h 0
      rw [replaceAll_cons_neg h0, ih (fun j => by simpa using h (j + 1))]

theorem replaceAll_single {pat sub : List Char} (hpat : pat ≠ []) :
    ∀ (l : List Char) (i : Nat), pat.isPrefixOf (l.drop i) →
      (∀ j, pat.isPrefixOf (l.drop j) → j = i) →
      replaceAll pat sub l = l.take i ++ sub ++ l.drop (i + pat.length) := by
  intro l
  induction l generalizing sub with
  | nil =>
    intro i hocc _
    rw [List.drop_nil] at hocc
    rw [List.isPrefixOf_iff_prefix] at hocc
    exact absurd (List.prefix_nil.mp hocc) hpat
  | cons c rest ih =>
    intro i hocc huni
    cases pat with
    | nil => exact absurd rfl hpat
    | cons p ps =>
      cases i with
      | zero =>
        rw [List.drop_zero] at hocc
        rw [replaceAll_cons_pos hocc]
        have hnone : ∀ j, ¬ (p :: ps).isPrefixOf ((rest.drop ps.length).drop j) := by
          intro j hj
          rw [List.drop_drop] at hj
          have := huni (ps.length + j + 1) (by
            show (p :: ps).isPrefixOf ((c :: rest).drop (ps.length + j + 1))
            simpa [Nat.add_comm] using hj)
          omega
        rw [replaceAll_no_occ _ hnone]
        simp only [List.take_zero, List.nil_append, Nat.zero_add, List.length_cons,
          List.drop_succ_cons]
      | succ i' =>
        have h0 : ¬ (p :: ps).isPrefixOf (c :: rest) := by
          intro hcon
          have := huni 0 (by simpa using hcon)
          omega
        rw [replaceAll_cons_neg h0]
        rw [ih i' (by simpa using hocc) (fun j hj => by
          have := huni (j + 1) (by simpa using hj)
          omega)]
        simp only [List.take_succ_cons, List.cons_append, List.length_cons,
          show i' + 1 + (ps.length + 1) = (i' + (ps.length + 1)) + 1 from by omega,
          List.drop_succ_cons]

theorem isPrefixOf_take {p u : List Char} {n : Nat} (h : p.isPrefixOf u)
    (hn : p.length ≤ n) : p.isPrefixOf (u.take n) := by
  obtain ⟨t, ht⟩ := List.isPrefixOf_iff_prefix.mp h
  rw [List.isPrefixOf_iff_prefix, ← ht, List.take_append_eq_append_take,
    List.take_of_length_le hn]
  exact List.prefix_append _ _

theorem findIdx?_append_cons_go {p : Char → Bool} {xs ys : List Char} {y : Char}
    (hxs : ∀ x ∈ xs, p x = false) (hy : p y = true) :
    ∀ i, List.findIdx? p (xs ++ y :: ys) i = some (xs.length + i) := by
  induction xs with
  | nil =>
    intro i
    rw [List.nil_append, List.findIdx?_cons, if_pos hy]
    simp
  | cons x xs2 ih =>
    intro i
    have hx : p x = false := hxs x (List.mem_cons_self _ _)
    rw [List.cons_append, List.findIdx?_cons, if_neg (by simp [hx])]
    rw [ih (fun z hz => hxs z (List.mem_cons_of_mem x hz)) (i + 1)]
    refine congrArg some ?_
    simp only [List.length_cons]
    omega

theorem findIdx?_append_cons {p : Char → Bool} {xs ys : List Char} {y : Char}
    (hxs : ∀ x ∈ xs, p x = false) (hy : p y = true) :
    List.findIdx? p (xs ++ y :: ys) = some xs.length := by
  have h := @findIdx?_append_cons_go p xs ys y hxs hy 0
  simpa using h

theorem isPrefixOf_cons_drop_iff {p : Char} {ps l : List Char} {j : Nat} :
    (p :: ps).isPrefixOf (l.drop j) ↔ l[j]? = some p ∧ ps.isPrefixOf (l.drop (j + 1)) := by
  constructor
  · intro h
    obtain ⟨t, ht⟩ := List.isPrefixOf_iff_prefix.mp h
    have hj : l.drop j = p :: (ps ++ t) := by rw [← ht]; rfl
    constructor
    · have h0 : (l.drop j)[0]? = some p := by rw [hj]; simp
      rwa [List.getElem?_drop, Nat.add_zero] at h0
    · rw [List.isPrefixOf_iff_prefix]
      refine ⟨t, ?_⟩
      have h1 : (l.drop j).drop 1 = ps ++ t := by rw [hj]; rfl
      rw [List.drop_drop] at h1
      exact h1.symm
  · rintro ⟨h1, h2⟩
    obtain ⟨t, ht⟩ := List.isPrefixOf_iff_prefix.mp h2
    rw [List.isPrefixOf_iff_prefix]
    refine ⟨t, ?_⟩
    obtain ⟨hjlt, hget⟩ := List.getElem?_eq_some_iff.mp h1
    rw [List.drop_eq_getElem_cons hjlt, hget, List.cons_append, ht]

theorem hostMatchAt_eq_some {u m : List Char} (h : hostMatchAt u = some m) :
    "Host:".data.isPrefixOf u ∧ m.isPrefixOf u ∧ "Host:".data.isPrefixOf m ∧ m ≠ [] := by
  simp only [hostMatchAt] at h
  by_cases hp : "Host:".data.isPrefixOf u
  · rw [if_pos hp] at h
    cases hq : (u.drop 5).findIdx? (fun c => c = '\n') with
    | none => rw [hq] at h; exact absurd h (by simp)
    | some q =>
      rw [hq] at h
      have h2 : (if 1 ≤ q ∧ (u.drop 5).get? (q - 1) = some '\r'
          then some (u.take (5 + q + 1)) else none) = some m := h
      by_cases hcond : 1 ≤ q ∧ (u.drop 5).get? (q - 1) = some '\r'
      · rw [if_pos hcond] at h2
        simp only [Option.some.injEq] at h2
        subst h2
        have hpm : "Host:".data.isPrefixOf (u.take (5 + q + 1)) :=
          isPrefixOf_take hp (by show 5 ≤ 5 + q + 1; omega)
        refine ⟨hp, ?_, hpm, ?_⟩
        · rw [List.isPrefixOf_iff_prefix]
          exact List.take_prefix _ _
        · intro hnil
          rw [hnil] at hpm
          simp [List.isPrefixOf] at hpm
      · rw [if_neg hcond] at h2
        exact absurd h2 (by simp)
  · rw [if_neg hp] at h
    exact absurd h (by simp)

theorem hostMatchAt_new (target : String) (B : List Char) (ht : '\n' ∉ target.data) :
    hostMatchAt (("Host: ".data ++ target.data ++ CRLF.data) ++ B) =
      some ("Host: ".data ++ target.data ++ CRLF.data) := by
  set u := ("Host: ".data ++ target.data ++ CRLF.data) ++ B with hu
  have e1 : u = "Host:".data ++ ((' ' :: target.data) ++ ('\r' :: '\n' :: B)) := by
    rw [hu, show ("Host: ".data : List Char) = "Host:".data ++ [' '] from rfl,
      show (CRLF.data : List Char) = ['\r', '\n'] from rfl]
    simp [List.append_assoc]
  have hp : "Host:".data.isPrefixOf u := by
    rw [List.isPrefixOf_iff_prefix, e1]
    exact List.prefix_append _ _
  have e2 : u.drop 5 = (' ' :: target.data) ++ ('\r' :: '\n' :: B) := by
    rw [e1, show (5 : Nat) = ("Host:".data : List Char).length from rfl, List.drop_left]
  have e3 : u.drop 5 = ((' ' :: target.data) ++ ['\r']) ++ '\n' :: B := by
    rw [e2]
    simp [List.append_assoc]
  have hfi : (u.drop 5).findIdx? (fun c => c = '\n') = some (target.data.length + 2) := by
    have h := @findIdx?_append_cons (fun c => c = '\n') ((' ' :: target.data) ++ ['\r']) B '\n'
      (by
        intro x hx
        simp only [List.mem_append, List.mem_cons, List.not_mem_nil, or_false] at hx
        rcases hx with (rfl | hx2) | rfl
        · decide
        · simp only [decide_eq_false_iff_not]
          exact fun hxe => ht (hxe ▸ hx2)
        · decide)
      (by simp)
    rw [e3, h]
    simp only [List.length_append, List.length_cons, List.length_nil, Option.some.injEq]
  have hget : (u.drop 5).get? (target.data.length + 2 - 1) = some '\r' := by
    rw [List.get?_eq_getElem?, e3, List.getElem?_append,
      if_pos (by simp only [List.length_append, List.length_cons, List.length_nil]; omega),
      List.getElem?_append, if_neg (by simp only [List.length_cons]; omega)]
    simp only [List.length_cons]
    rw [show target.data.length + 2 - 1 - (target.data.length + 1) = 0 from by omega]
    rfl
  have hlen : 5 + (target.data.length + 2) + 1 =
      ("Host: ".data ++ target.data ++ CRLF.data).length := by
    simp only [List.length_append, show ("Host: ".data : List Char).length = 6 from rfl,
      show (CRLF.data : List Char).length = 2 from rfl]
    omega
  simp only [hostMatchAt, if_pos hp, hfi]
  rw [if_pos ⟨by omega, hget⟩, hlen, hu, List.take_left]

theorem hostMatchAt_eq_none_of_not_prefix {u : List Char}
    (h : ¬ "Host:".data.isPrefixOf u) : hostMatchAt u = none := by
  simp only [hostMatchAt, if_neg h]

theorem host_prefix_iff {l : List Char} {j : Nat} :
    "Host:".data.isPrefixOf (l.drop j) ↔
      l[j]? = some 'H' ∧ l[j + 1]? = some 'o' ∧ l[j + 2]? = some 's' ∧
      l[j + 3]? = some 't' ∧ l[j + 4]? = some ':' := by
  show ('H' :: 'o' :: 's' :: 't' :: ':' :: []).isPrefixOf (l.drop j) ↔ _
  rw [isPrefixOf_cons_drop_iff, isPrefixOf_cons_drop_iff, isPrefixOf_cons_drop_iff,
    isPrefixOf_cons_drop_iff, isPrefixOf_cons_drop_iff]
  simp [List.isPrefixOf]

theorem lt_length_of_isPrefixOf_drop {pat l : List Char} {i : Nat}
    (h : pat.isPrefixOf (l.drop i)) (hne : pat ≠ []) : i < l.length := by
  by_contra hcon
  rw [List.drop_eq_nil_of_le (by omega)] at h
  rw [List.isPrefixOf_iff_prefix] at h
  exact hne (List.prefix_nil.mp h)

/-- C5 counterexample: `change_host` does NOT leave every other line
byte-identical: `str::replace` substitutes every occurrence of the matched
Host-line text, so on `"Host: a\r\nXHost: a\r\n"` the second line is
corrupted as well, instead of staying `"XHost: a\r\n"`. -/
theorem c5_counterexample_replaces_all_occurrences :
    Headers.change_host "Host: a\r\nXHost: a\r\n" "t" = "Host: t\r\nXHost: t\r\n" ∧
    Headers.change_host "Host: a\r\nXHost: a\r\n" "t" ≠ "Host: t\r\nXHost: a\r\n" := by
  decide

/-- C5 amended: when the literal token `Host:` occurs at exactly one
position of the input and a Host line is matched there, `rewrite_host`
replaces the matched line by `Host: <target>\r\n` and leaves the rest of
the input byte-identical (the text before and after the matched span is
unchanged); applying it a second time with the same newline-free target
produces the same output.  (In general `str::replace` substitutes every
occurrence of the matched text, as the counterexample shows.) -/
theorem c5_amended_unique_host_rewrite (raw target : String) (m : List Char)
    (hfind : findHost raw.data = some m)
    (htgt : '\n' ∉ target.data)
    (huniq : ∀ i j, "Host:".data.isPrefixOf (raw.data.drop i) →
      "Host:".data.isPrefixOf (raw.data.drop j) → i = j) :
    (∀ i, "Host:".data.isPrefixOf (raw.data.drop i) →
      (Headers.change_host raw target).data =
        raw.data.take i ++ ("Host: ".data ++ target.data ++ CRLF.data) ++
          raw.data.drop (i + m.length)) ∧
    Headers.change_host (Headers.change_host raw target) target =
      Headers.change_host raw target := by
  have hfind' : scanFirst hostMatchAt raw.data = some m := hfind
  obtain ⟨a, halen, hma, hnone⟩ := scanFirst_eq_some_iff.mp hfind'
  obtain ⟨hhp, hmp, hhm, hmne⟩ := hostMatchAt_eq_some hma
  have hmuniq : ∀ j, m.isPrefixOf (raw.data.drop j) → j = a := by
    intro j hj
    have hj2 : "Host:".data.isPrefixOf (raw.data.drop j) :=
      List.isPrefixOf_iff_prefix.mpr
        ((List.isPrefixOf_iff_prefix.mp hhm).trans (List.isPrefixOf_iff_prefix.mp hj))
    exact huniq j a hj2 hhp
  set new : List Char := "Host: ".data ++ target.data ++ CRLF.data with hnew
  have hch : Headers.change_host raw target = ⟨replaceAll m new raw.data⟩ := by
    simp only [Headers.change_host, hfind]
  have hframe : replaceAll m new raw.data =
      raw.data.take a ++ new ++ raw.data.drop (a + m.length) :=
    replaceAll_single hmne raw.data a hmp hmuniq
  constructor
  · intro i hi
    have hia : i = a := huniq i a hi hhp
    subst hia
    rw [hch]
    show replaceAll m new raw.data = _
    rw [hframe]
  · set A : List Char := raw.data.take a with hA
    set B : List Char := raw.data.drop (a + m.length) with hB
    have hAlen : A.length = a := by
      rw [hA, List.length_take]
      omega
    have hnewlen : 8 ≤ new.length := by
      rw [hnew]
      simp only [List.length_append, show ("Host: ".data : List Char).length = 6 from rfl,
        show (CRLF.data : List Char).length = 2 from rfl]
      omega
    have hLge : ∀ idx, idx < a → (A ++ new ++ B)[idx]? = raw.data[idx]? := by
      intro idx hidx
      rw [List.append_assoc, List.getElem?_append, if_pos (by omega), hA,
        List.getElem?_take, if_pos hidx]
    have hfind2 : findHost (A ++ new ++ B) = some new := by
      show scanFirst hostMatchAt (A ++ new ++ B) = some new
      rw [scanFirst_eq_some_iff]
      refine ⟨a, ?_, ?_, ?_⟩
      · simp only [List.length_append, hAlen]
        omega
      · have hdrop : (A ++ new ++ B).drop a = new ++ B := by
          rw [List.append_assoc, ← hAlen, List.drop_left]
        rw [hdrop, hnew]
        exact hostMatchAt_new target B htgt
      · intro j hj
        apply hostMatchAt_eq_none_of_not_prefix
        intro hpre
        rw [host_prefix_iff] at hpre
        obtain ⟨e0, e1, e2, e3, e4⟩ := hpre
        by_cases hcase : j + 5 ≤ a
        · have hocc : "Host:".data.isPrefixOf (raw.data.drop j) := by
            rw [host_prefix_iff]
            exact ⟨by rw [← hLge j (by omega)]; exact e0,
              by rw [← hLge (j + 1) (by omega)]; exact e1,
              by rw [← hLge (j + 2) (by omega)]; exact e2,
              by rw [← hLge (j + 3) (by omega)]; exact e3,
              by rw [← hLge (j + 4) (by omega)]; exact e4⟩
          have := huniq j a hocc hhp
          omega
        · have he4 : (A ++ new ++ B)[j + 4]? = new[j + 4 - a]? := by
            rw [List.append_assoc, List.getElem?_append, if_neg (by omega),
              List.getElem?_append, if_pos (by omega), hAlen]
          rw [he4] at e4
          have hk : j + 4 - a < 4 := by omega
          have hval : new[j + 4 - a]? = some 'H' ∨ new[j + 4 - a]? = some 'o' ∨
              new[j + 4 - a]? = some 's' ∨ new[j + 4 - a]? = some 't' := by
            have hv0 : new[0]? = some 'H' := by rw [hnew]; rfl
            have hv1 : new[1]? = some 'o' := by rw [hnew]; rfl
            have hv2 : new[2]? = some 's' := by rw [hnew]; rfl
            have hv3 : new[3]? = some 't' := by rw [hnew]; rfl
            have hk4 : j + 4 - a = 0 ∨ j + 4 - a = 1 ∨ j + 4 - a = 2 ∨ j + 4 - a = 3 := by
              omega
            rcases hk4 with h | h | h | h <;> rw [h]
            · exact Or.inl hv0
            · exact Or.inr (Or.inl hv1)
            · exact Or.inr (Or.inr (Or.inl hv2))
            · exact Or.inr (Or.inr (Or.inr hv3))
          rcases hval with hv | hv | hv | hv <;> rw [hv] at e4 <;> simp at e4
    have hdata2 : (⟨replaceAll m new raw.data⟩ : String) = ⟨A ++ new ++ B⟩ :=
      congrArg String.mk hframe
    rw [hch, hdata2]
    simp only [Headers.change_host, hfind2]
    exact congrArg String.mk (replaceAll_self new (A ++ new ++ B))

/-- C5 witness: on a concrete request whose unique Host line is
`"Host: old"`, rewriting to `"new:8080"` replaces just that line, and a
second rewrite with the same target changes nothing. -/
theorem c5_witness :
    Headers.change_host "GET /a HTTP/1.1\r\nHost: old\r\nX: y\r\n\r\n" "new:8080" =
      "GET /a HTTP/1.1\r\nHost: new:8080\r\nX: y\r\n\r\n" ∧
    Headers.change_host
        (Headers.change_host "GET /a HTTP/1.1\r\nHost: old\r\nX: y\r\n\r\n" "new:8080")
        "new:8080" =
      Headers.change_host "GET /a HTTP/1.1\r\nHost: old\r\nX: y\r\n\r\n" "new:8080" := by
  have key : ∀ x < 36, "Host:".data.isPrefixOf
      (("GET /a HTTP/1.1\r\nHost: old\r\nX: y\r\n\r\n".data).drop x) → x = 17 := by
    decide
  have h := c5_amended_unique_host_rewrite "GET /a HTTP/1.1\r\nHost: old\r\nX: y\r\n\r\n"
    "new:8080" ("Host: old\r\n".data) (by decide) (by decide)
    (by
      intro i j hi hj
      have hi2 : i < 36 := by
        have := lt_length_of_isPrefixOf_drop hi (by decide)
        simpa using this
      have hj2 : j < 36 := by
        have := lt_length_of_isPrefixOf_drop hj (by decide)
        simpa using this
      rw [key i hi2 hi, key j hj2 hj])
  exact ⟨by decide, h.2⟩

/-! ### Supporting lemmas: UTF-8 round trip and soundness (for C9) -/

theorem char_eq_of_toNat_eq {c d : Char} (h : c.toNat = d.toNat) : c = d :=
  Char.ext (UInt32.ext h)

theorem mkCharD_toNat {v : Nat} (h : v.isValidChar) : (mkCharD v).toNat = v := by
  rw [mkCharD, dif_pos h]
  simp [Char.ofNatAux, Char.toNat, UInt32.toNat]

theorem mkCharD_char (c : Char) : mkCharD c.toNat = c :=
  char_eq_of_toNat_eq (mkCharD_toNat c.valid)

theorem decodeUtf8_cons (b0 : Byte) (rest : List Byte) :
    decodeUtf8 (b0 :: rest) =
      (if b0 < 0x80 then
        (decodeUtf8 rest).map (fun cs => mkCharD b0 :: cs)
      else if 0xC2 ≤ b0 && b0 ≤ 0xDF then
        match rest with
        | b1 :: rest1 =>
          if isCont b1 then
            (decodeUtf8 rest1).map (fun cs => mkCharD ((b0 - 0xC0) * 64 + (b1 - 0x80)) :: cs)
          else none
        | [] => none
      else if 0xE0 ≤ b0 && b0 ≤ 0xEF then
        match rest with
        | b1 :: b2 :: rest2 =>
          if cont2ok b0 b1 && isCont b2 then
            (decodeUtf8 rest2).map
              (fun cs => mkCharD ((b0 - 0xE0) * 4096 + (b1 - 0x80) * 64 + (b2 - 0x80)) :: cs)
          else none
        | _ => none
      else if 0xF0 ≤ b0 && b0 ≤ 0xF4 then
        match rest with
        | b1 :: b2 :: b3 :: rest3 =>
          if cont3ok b0 b1 && isCont b2 && isCont b3 then
            (decodeUtf8 rest3).map
              (fun cs => mkCharD
                ((b0 - 0xF0) * 262144 + (b1 - 0x80) * 4096 + (b2 - 0x80) * 64 + (b3 - 0x80)) :: cs)
          else none
        | _ => none
      else none) := by
  cases rest with
  | nil => rfl
  | cons b1 rest1 =>
    cases rest1 with
    | nil => rfl
    | cons b2 rest2 =>
      cases rest2 with
      | nil => rfl
      | cons b3 rest3 => rfl


theorem isCont_iff (b : Nat) : isCont b = true ↔ (128 ≤ b ∧ b ≤ 191) := by
  simp only [isCont, Bool.and_eq_true, decide_eq_true_eq]

theorem cont2ok_eq_true {b0 b1 : Nat}
    (h : (b0 = 0xE0 ∧ 0xA0 ≤ b1 ∧ b1 ≤ 0xBF) ∨
         (b0 = 0xED ∧ 0x80 ≤ b1 ∧ b1 ≤ 0x9F) ∨
         (b0 ≠ 0xE0 ∧ b0 ≠ 0xED ∧ 0x80 ≤ b1 ∧ b1 ≤ 0xBF)) :
    cont2ok b0 b1 = true := by
  rw [cont2ok]
  rcases h with ⟨h0, ha, hb⟩ | ⟨h0, ha, hb⟩ | ⟨h0, h0x, ha, hb⟩
  · rw [if_pos h0]
    simp only [Bool.and_eq_true, decide_eq_true_eq]
    exact ⟨ha, hb⟩
  · rw [if_neg (show ¬ b0 = 0xE0 from by rw [h0]; decide), if_pos h0]
    simp only [Bool.and_eq_true, decide_eq_true_eq]
    exact ⟨ha, hb⟩
  · rw [if_neg h0, if_neg h0x]
    exact (isCont_iff _).mpr ⟨ha, hb⟩

theorem cont3ok_eq_true {b0 b1 : Nat}
    (h : (b0 = 0xF0 ∧ 0x90 ≤ b1 ∧ b1 ≤ 0xBF) ∨
         (b0 = 0xF4 ∧ 0x80 ≤ b1 ∧ b1 ≤ 0x8F) ∨
         (b0 ≠ 0xF0 ∧ b0 ≠ 0xF4 ∧ 0x80 ≤ b1 ∧ b1 ≤ 0xBF)) :
    cont3ok b0 b1 = true := by
  rw [cont3ok]
  rcases h with ⟨h0, ha, hb⟩ | ⟨h0, ha, hb⟩ | ⟨h0, h0x, ha, hb⟩
  · rw [if_pos h0]
    simp only [Bool.and_eq_true, decide_eq_true_eq]
    exact ⟨ha, hb⟩
  · rw [if_neg (show ¬ b0 = 0xF0 from by rw [h0]; decide), if_pos h0]
    simp only [Bool.and_eq_true, decide_eq_true_eq]
    exact ⟨ha, hb⟩
  · rw [if_neg h0, if_neg h0x]
    exact (isCont_iff _).mpr ⟨ha, hb⟩

theorem decode_encodeChar (c : Char) (rest : List Byte) :
    decodeUtf8 (encodeCharNat c.toNat ++ rest) =
      (decodeUtf8 rest).map (fun cs => c :: cs) := by
  have hval : c.toNat.isValidChar := c.valid
  set n := c.toNat with hn
  have hlt : n < 0xD800 ∨ (0xDFFF < n ∧ n < 0x110000) := hval
  rw [encodeCharNat]
  by_cases h1 : n < 0x80
  · rw [if_pos h1]
    show decodeUtf8 (n :: rest) = _
    rw [decodeUtf8_cons, if_pos h1, hn, mkCharD_char]
  · rw [if_neg h1]
    by_cases h2 : n < 0x800
    · rw [if_pos h2]
      show decodeUtf8 ((0xC0 + n / 64) :: (0x80 + n % 64) :: rest) = _
      rw [decodeUtf8_cons]
      rw [if_neg (show ¬ (0xC0 + n / 64 < 0x80) from by omega)]
      rw [if_pos (show (decide (0xC2 ≤ 0xC0 + n / 64) && decide (0xC0 + n / 64 ≤ 0xDF)) = true
        from by simp only [Bool.and_eq_true, decide_eq_true_eq]; omega)]
      show (if isCont (0x80 + n % 64) = true then
          (decodeUtf8 rest).map
            (fun cs => mkCharD ((0xC0 + n / 64 - 0xC0) * 64 + (0x80 + n % 64 - 0x80)) :: cs)
        else none) = _
      rw [show isCont (0x80 + n % 64) = true from (isCont_iff _).mpr (by omega)]
      rw [if_pos rfl]
      rw [show (0xC0 + n / 64 - 0xC0) * 64 + (0x80 + n % 64 - 0x80) = n from by omega]
      rw [hn, mkCharD_char]
    · rw [if_neg h2]
      by_cases h3 : n < 0x10000
      · rw [if_pos h3]
        show decodeUtf8 ((0xE0 + n / 4096) :: (0x80 + n / 64 % 64) :: (0x80 + n % 64) :: rest) = _
        rw [decodeUtf8_cons]
        rw [if_neg (show ¬ (0xE0 + n / 4096 < 0x80) from by omega)]
        rw [if_neg (show ¬ ((decide (0xC2 ≤ 0xE0 + n / 4096) &&
          decide (0xE0 + n / 4096 ≤ 0xDF)) = true) from by
            simp only [Bool.and_eq_true, decide_eq_true_eq]; omega)]
        rw [if_pos (show (decide (0xE0 ≤ 0xE0 + n / 4096) &&
          decide (0xE0 + n / 4096 ≤ 0xEF)) = true from by
            simp only [Bool.and_eq_true, decide_eq_true_eq]; omega)]
        show (if (cont2ok (0xE0 + n / 4096) (0x80 + n / 64 % 64) &&
            isCont (0x80 + n % 64)) = true then
          (decodeUtf8 rest).map
            (fun cs => mkCharD ((0xE0 + n / 4096 - 0xE0) * 4096 +
              (0x80 + n / 64 % 64 - 0x80) * 64 + (0x80 + n % 64 - 0x80)) :: cs)
        else none) = _
        rw [show (cont2ok (0xE0 + n / 4096) (0x80 + n / 64 % 64) &&
            isCont (0x80 + n % 64)) = true from ?hc2]
        rw [if_pos rfl]
        rw [show (0xE0 + n / 4096 - 0xE0) * 4096 + (0x80 + n / 64 % 64 - 0x80) * 64 +
          (0x80 + n % 64 - 0x80) = n from by omega]
        rw [hn, mkCharD_char]
        case hc2 =>
          have hcont : isCont (0x80 + n % 64) = true := (isCont_iff _).mpr (by omega)
          rw [hcont, Bool.and_true]
          apply cont2ok_eq_true
          omega
      · rw [if_neg h3]
        have h4 : n < 0x110000 := by omega
        show decodeUtf8 ((0xF0 + n / 262144) :: (0x80 + n / 4096 % 64) ::
          (0x80 + n / 64 % 64) :: (0x80 + n % 64) :: rest) = _
        rw [decodeUtf8_cons]
        rw [if_neg (show ¬ (0xF0 + n / 262144 < 0x80) from by omega)]
        rw [if_neg (show ¬ ((decide (0xC2 ≤ 0xF0 + n / 262144) &&
          decide (0xF0 + n / 262144 ≤ 0xDF)) = true) from by
            simp only [Bool.and_eq_true, decide_eq_true_eq]; omega)]
        rw [if_neg (show ¬ ((decide (0xE0 ≤ 0xF0 + n / 262144) &&
          decide (0xF0 + n / 262144 ≤ 0xEF)) = true) from by
            simp only [Bool.and_eq_true, decide_eq_true_eq]; omega)]
        rw [if_pos (show (decide (0xF0 ≤ 0xF0 + n / 262144) &&
          decide (0xF0 + n / 262144 ≤ 0xF4)) = true from by
            simp only [Bool.and_eq_true, decide_eq_true_eq]; omega)]
        show (if (cont3ok (0xF0 + n / 262144) (0x80 + n / 4096 % 64) &&
            isCont (0x80 + n / 64 % 64) && isCont (0x80 + n % 64)) = true then
          (decodeUtf8 rest).map
            (fun cs => mkCharD ((0xF0 + n / 262144 - 0xF0) * 262144 +
              (0x80 + n / 4096 % 64 - 0x80) * 4096 + (0x80 + n / 64 % 64 - 0x80) * 64 +
              (0x80 + n % 64 - 0x80)) :: cs)
        else none) = _
        rw [show (cont3ok (0xF0 + n / 262144) (0x80 + n / 4096 % 64) &&
            isCont (0x80 + n / 64 % 64) && isCont (0x80 + n % 64)) = true from ?hc3]
        rw [if_pos rfl]
        rw [show (0xF0 + n / 262144 - 0xF0) * 262144 + (0x80 + n / 4096 % 64 - 0x80) * 4096 +
          (0x80 + n / 64 % 64 - 0x80) * 64 + (0x80 + n % 64 - 0x80) = n from by omega]
        rw [hn, mkCharD_char]
        case hc3 =>
          have hcont1 : isCont (0x80 + n / 64 % 64) = true := (isCont_iff _).mpr (by omega)
          have hcont2 : isCont (0x80 + n % 64) = true := (isCont_iff _).mpr (by omega)
          rw [hcont1, hcont2, Bool.and_true, Bool.and_true]
          apply cont3ok_eq_true
          omega

theorem utf8Encode_cons (c : Char) (cs : List Char) :
    utf8Encode (c :: cs) = encodeCharNat c.toNat ++ utf8Encode cs := by
  rw [utf8Encode, List.map_cons, List.flatten_cons]
  rfl

theorem byteRange_iff (lo hi b : Nat) : (lo ≤ b && b ≤ hi) = true ↔ (lo ≤ b ∧ b ≤ hi) := by
  simp only [Bool.and_eq_true, decide_eq_true_eq]

theorem cont2ok_true_imp {b0 b1 : Nat} (h : cont2ok b0 b1 = true) :
    (b0 = 0xE0 ∧ 0xA0 ≤ b1 ∧ b1 ≤ 0xBF) ∨
    (b0 = 0xED ∧ 0x80 ≤ b1 ∧ b1 ≤ 0x9F) ∨
    (b0 ≠ 0xE0 ∧ b0 ≠ 0xED ∧ 0x80 ≤ b1 ∧ b1 ≤ 0xBF) := by
  rw [cont2ok] at h
  by_cases h0 : b0 = 0xE0
  · rw [if_pos h0] at h
    simp only [Bool.and_eq_true, decide_eq_true_eq] at h
    exact Or.inl ⟨h0, h⟩
  · rw [if_neg h0] at h
    by_cases hx : b0 = 0xED
    · rw [if_pos hx] at h
      simp only [Bool.and_eq_true, decide_eq_true_eq] at h
      exact Or.inr (Or.inl ⟨hx, h⟩)
    · rw [if_neg hx] at h
      exact Or.inr (Or.inr ⟨h0, hx, (isCont_iff _).mp h⟩)

theorem cont3ok_true_imp {b0 b1 : Nat} (h : cont3ok b0 b1 = true) :
    (b0 = 0xF0 ∧ 0x90 ≤ b1 ∧ b1 ≤ 0xBF) ∨
    (b0 = 0xF4 ∧ 0x80 ≤ b1 ∧ b1 ≤ 0x8F) ∨
    (b0 ≠ 0xF0 ∧ b0 ≠ 0xF4 ∧ 0x80 ≤ b1 ∧ b1 ≤ 0xBF) := by
  rw [cont3ok] at h
  by_cases h0 : b0 = 0xF0
  · rw [if_pos h0] at h
    simp only [Bool.and_eq_true, decide_eq_true_eq] at h
    exact Or.inl ⟨h0, h⟩
  · rw [if_neg h0] at h
    by_cases hx : b0 = 0xF4
    · rw [if_pos hx] at h
      simp only [Bool.and_eq_true, decide_eq_true_eq] at h
      exact Or.inr (Or.inl ⟨hx, h⟩)
    · rw [if_neg hx] at h
      exact Or.inr (Or.inr ⟨h0, hx, (isCont_iff _).mp h⟩)

theorem isValidChar_of (v : Nat) (h : v < 0xD800 ∨ (0xDFFF < v ∧ v < 0x110000)) :
    v.isValidChar := h

set_option maxRecDepth 10000 in
theorem decodeUtf8_sound : ∀ (k : Nat) (bs : List Nat) (cs : List Char),
    bs.length ≤ k → decodeUtf8 bs = some cs → bs = utf8Encode cs := by
  intro k
  induction k with
  | zero =>
    intro bs cs hlen h
    cases bs with
    | nil =>
      have h0 : some ([] : List Char) = some cs := h
      injection h0 with h0
      subst h0
      rfl
    | cons b0 rest =>
      exact absurd hlen (by simp only [List.length_cons]; omega)
  | succ k ih =>
    intro bs cs hlen h
    cases bs with
    | nil =>
      have h0 : some ([] : List Char) = some cs := h
      injection h0 with h0
      subst h0
      rfl
    | cons b0 rest =>
      rw [decodeUtf8_cons] at h
      by_cases h1 : b0 < 0x80
      · rw [if_pos h1] at h
        cases hr : decodeUtf8 rest with
        | none =>
          rw [hr] at h
          exact Option.noConfusion (show (none : Option (List Char)) = some cs from h)
        | some cs2 =>
          rw [hr] at h
          have h3 : some (mkCharD b0 :: cs2) = some cs := h
          injection h3 with h3
          subst h3
          have hrest := ih rest cs2 (by simp only [List.length_cons] at hlen; omega) hr
          rw [utf8Encode_cons, ← hrest]
          have h1n : b0 < (0x80 : Nat) := h1
          have hval : (b0 : Nat).isValidChar := isValidChar_of _ (by omega)
          rw [mkCharD_toNat hval]
          rw [encodeCharNat, if_pos h1]
          rfl
      · rw [if_neg h1] at h
        by_cases h2 : (0xC2 ≤ b0 && b0 ≤ 0xDF) = true
        · rw [if_pos h2] at h
          obtain ⟨h2a, h2b⟩ := (byteRange_iff _ _ _).mp h2
          cases rest with
          | nil =>
            exact Option.noConfusion (show (none : Option (List Char)) = some cs from h)
          | cons b1 rest1 =>
            have h4 : (if isCont b1 = true then
                (decodeUtf8 rest1).map
                  (fun ds => mkCharD ((b0 - 0xC0) * 64 + (b1 - 0x80)) :: ds)
              else none) = some cs := h
            by_cases hc : isCont b1 = true
            · rw [if_pos hc] at h4
              obtain ⟨hca, hcb⟩ := (isCont_iff _).mp hc
              cases hr : decodeUtf8 rest1 with
              | none =>
                rw [hr] at h4
                exact Option.noConfusion
                  (show (none : Option (List Char)) = some cs from h4)
              | some cs2 =>
                rw [hr] at h4
                have h3 : some (mkCharD ((b0 - 0xC0) * 64 + (b1 - 0x80)) :: cs2) = some cs := h4
                injection h3 with h3
                subst h3
                have hrest := ih rest1 cs2
                  (by simp only [List.length_cons] at hlen; omega) hr
                rw [utf8Encode_cons, ← hrest]
                have hval : ((b0 - 0xC0) * 64 + (b1 - 0x80) : Nat).isValidChar :=
                  isValidChar_of _ (by omega)
                rw [mkCharD_toNat hval]
                rw [encodeCharNat]
                rw [if_neg (show ¬ ((b0 - 0xC0) * 64 + (b1 - 0x80) < 0x80) from by omega)]
                rw [if_pos (show (b0 - 0xC0) * 64 + (b1 - 0x80) < 0x800 from by omega)]
                show b0 :: b1 :: rest1 =
                  [0xC0 + ((b0 - 0xC0) * 64 + (b1 - 0x80)) / 64,
                   0x80 + ((b0 - 0xC0) * 64 + (b1 - 0x80)) % 64] ++ rest1
                rw [show 0xC0 + ((b0 - 0xC0) * 64 + (b1 - 0x80)) / 64 = b0 from by omega]
                rw [show 0x80 + ((b0 - 0xC0) * 64 + (b1 - 0x80)) % 64 = b1 from by omega]
                rfl
            · rw [if_neg hc] at h4
              exact Option.noConfusion h4
        · rw [if_neg h2] at h
          by_cases h3 : (0xE0 ≤ b0 && b0 ≤ 0xEF) = true
          · rw [if_pos h3] at h
            obtain ⟨h3a, h3b⟩ := (byteRange_iff _ _ _).mp h3
            cases rest with
            | nil =>
              exact Option.noConfusion (show (none : Option (List Char)) = some cs from h)
            | cons b1 rest1 =>
              cases rest1 with
              | nil =>
                exact Option.noConfusion (show (none : Option (List Char)) = some cs from h)
              | cons b2 rest2 =>
                have h4 : (if (cont2ok b0 b1 && isCont b2) = true then
                    (decodeUtf8 rest2).map
                      (fun ds => mkCharD
                        ((b0 - 0xE0) * 4096 + (b1 - 0x80) * 64 + (b2 - 0x80)) :: ds)
                  else none) = some cs := h
                by_cases hcc : (cont2ok b0 b1 && isCont b2) = true
                · rw [if_pos hcc] at h4
                  rw [Bool.and_eq_true] at hcc
                  have hd2 := cont2ok_true_imp hcc.1
                  obtain ⟨hca, hcb⟩ := (isCont_iff _).mp hcc.2
                  cases hr : decodeUtf8 rest2 with
                  | none =>
                    rw [hr] at h4
                    exact Option.noConfusion
                      (show (none : Option (List Char)) = some cs from h4)
                  | some cs2 =>
                    rw [hr] at h4
                    have h5 : some (mkCharD
                        ((b0 - 0xE0) * 4096 + (b1 - 0x80) * 64 + (b2 - 0x80)) :: cs2) =
                        some cs := h4
                    injection h5 with h5
                    subst h5
                    have hrest := ih rest2 cs2
                      (by simp only [List.length_cons] at hlen; omega) hr
                    rw [utf8Encode_cons, ← hrest]
                    have hval : ((b0 - 0xE0) * 4096 + (b1 - 0x80) * 64 + (b2 - 0x80) :
                        Nat).isValidChar := isValidChar_of _ (by omega)
                    rw [mkCharD_toNat hval]
                    rw [encodeCharNat]
                    rw [if_neg (show ¬ ((b0 - 0xE0) * 4096 + (b1 - 0x80) * 64 +
                      (b2 - 0x80) < 0x80) from by omega)]
                    rw [if_neg (show ¬ ((b0 - 0xE0) * 4096 + (b1 - 0x80) * 64 +
                      (b2 - 0x80) < 0x800) from by omega)]
                    rw [if_pos (show (b0 - 0xE0) * 4096 + (b1 - 0x80) * 64 +
                      (b2 - 0x80) < 0x10000 from by omega)]
                    show b0 :: b1 :: b2 :: rest2 =
                      [0xE0 + ((b0 - 0xE0) * 4096 + (b1 - 0x80) * 64 + (b2 - 0x80)) / 4096,
                       0x80 + ((b0 - 0xE0) * 4096 + (b1 - 0x80) * 64 + (b2 - 0x80)) / 64 % 64,
                       0x80 + ((b0 - 0xE0) * 4096 + (b1 - 0x80) * 64 + (b2 - 0x80)) % 64] ++
                        rest2
                    rw [show 0xE0 + ((b0 - 0xE0) * 4096 + (b1 - 0x80) * 64 +
                      (b2 - 0x80)) / 4096 = b0 from by omega]
                    rw [show 0x80 + ((b0 - 0xE0) * 4096 + (b1 - 0x80) * 64 +
                      (b2 - 0x80)) / 64 % 64 = b1 from by omega]
                    rw [show 0x80 + ((b0 - 0xE0) * 4096 + (b1 - 0x80) * 64 +
                      (b2 - 0x80)) % 64 = b2 from by omega]
                    rfl
                · rw [if_neg hcc] at h4
                  exact Option.noConfusion h4
          · rw [if_neg h3] at h
            by_cases h4 : (0xF0 ≤ b0 && b0 ≤ 0xF4) = true
            · rw [if_pos h4] at h
              obtain ⟨h4a, h4b⟩ := (byteRange_iff _ _ _).mp h4
              cases rest with
              | nil =>
                exact Option.noConfusion (show (none : Option (List Char)) = some cs from h)
              | cons b1 rest1 =>
                cases rest1 with
                | nil =>
                  exact Option.noConfusion
                    (show (none : Option (List Char)) = some cs from h)
                | cons b2 rest2 =>
                  cases rest2 with
                  | nil =>
                    exact Option.noConfusion
                      (show (none : Option (List Char)) = some cs from h)
                  | cons b3 rest3 =>
                    have h5 : (if (cont3ok b0 b1 && isCont b2 && isCont b3) = true then
                        (decodeUtf8 rest3).map
                          (fun ds => mkCharD
                            ((b0 - 0xF0) * 262144 + (b1 - 0x80) * 4096 +
                              (b2 - 0x80) * 64 + (b3 - 0x80)) :: ds)
                      else none) = some cs := h
                    by_cases hcc : (cont3ok b0 b1 && isCont b2 && isCont b3) = true
                    · rw [if_pos hcc] at h5
                      rw [Bool.and_eq_true, Bool.and_eq_true] at hcc
                      have hd2 := cont3ok_true_imp hcc.1.1
                      obtain ⟨hca, hcb⟩ := (isCont_iff _).mp hcc.1.2
                      obtain ⟨hda, hdb⟩ := (isCont_iff _).mp hcc.2
                      cases hr : decodeUtf8 rest3 with
                      | none =>
                        rw [hr] at h5
                        exact Option.noConfusion
                          (show (none : Option (List Char)) = some cs from h5)
                      | some cs2 =>
                        rw [hr] at h5
                        have h6 : some (mkCharD
                            ((b0 - 0xF0) * 262144 + (b1 - 0x80) * 4096 +
                              (b2 - 0x80) * 64 + (b3 - 0x80)) :: cs2) = some cs := h5
                        injection h6 with h6
                        subst h6
                        have hrest := ih rest3 cs2
                          (by simp only [List.length_cons] at hlen; omega) hr
                        rw [utf8Encode_cons, ← hrest]
                        have hval : ((b0 - 0xF0) * 262144 + (b1 - 0x80) * 4096 +
                            (b2 - 0x80) * 64 + (b3 - 0x80) : Nat).isValidChar :=
                          isValidChar_of _ (by omega)
                        rw [mkCharD_toNat hval]
                        rw [encodeCharNat]
                        rw [if_neg (show ¬ ((b0 - 0xF0) * 262144 + (b1 - 0x80) * 4096 +
                          (b2 - 0x80) * 64 + (b3 - 0x80) < 0x80) from by omega)]
                        rw [if_neg (show ¬ ((b0 - 0xF0) * 262144 + (b1 - 0x80) * 4096 +
                          (b2 - 0x80) * 64 + (b3 - 0x80) < 0x800) from by omega)]
                        rw [if_neg (show ¬ ((b0 - 0xF0) * 262144 + (b1 - 0x80) * 4096 +
                          (b2 - 0x80) * 64 + (b3 - 0x80) < 0x10000) from by omega)]
                        show b0 :: b1 :: b2 :: b3 :: rest3 =
                          [0xF0 + ((b0 - 0xF0) * 262144 + (b1 - 0x80) * 4096 +
                            (b2 - 0x80) * 64 + (b3 - 0x80)) / 262144,
                           0x80 + ((b0 - 0xF0) * 262144 + (b1 - 0x80) * 4096 +
                            (b2 - 0x80) * 64 + (b3 - 0x80)) / 4096 % 64,
                           0x80 + ((b0 - 0xF0) * 262144 + (b1 - 0x80) * 4096 +
                            (b2 - 0x80) * 64 + (b3 - 0x80)) / 64 % 64,
                           0x80 + ((b0 - 0xF0) * 262144 + (b1 - 0x80) * 4096 +
                            (b2 - 0x80) * 64 + (b3 - 0x80)) % 64] ++ rest3
                        rw [show 0xF0 + ((b0 - 0xF0) * 262144 + (b1 - 0x80) * 4096 +
                          (b2 - 0x80) * 64 + (b3 - 0x80)) / 262144 = b0 from by omega]
                        rw [show 0x80 + ((b0 - 0xF0) * 262144 + (b1 - 0x80) * 4096 +
                          (b2 - 0x80) * 64 + (b3 - 0x80)) / 4096 % 64 = b1 from by omega]
                        rw [show 0x80 + ((b0 - 0xF0) * 262144 + (b1 - 0x80) * 4096 +
                          (b2 - 0x80) * 64 + (b3 - 0x80)) / 64 % 64 = b2 from by omega]
                        rw [show 0x80 + ((b0 - 0xF0) * 262144 + (b1 - 0x80) * 4096 +
                          (b2 - 0x80) * 64 + (b3 - 0x80)) % 64 = b3 from by omega]
                        rfl
                    · rw [if_neg hcc] at h5
                      exact Option.noConfusion h5
            · rw [if_neg h4] at h
              exact Option.noConfusion h

theorem decodeUtf8_encode : ∀ cs : List Char, decodeUtf8 (utf8Encode cs) = some cs := by
  intro cs
  induction cs with
  | nil => rfl
  | cons c cs2 ih =>
    have : utf8Encode (c :: cs2) = encodeCharNat c.toNat ++ utf8Encode cs2 := by
      rw [utf8Encode, List.map_cons, List.flatten_cons]
      rfl
    rw [this, decode_encodeChar, ih]
    rfl

/-- C9: `Headers::from_bytes` returns a decode error if and only if its
input is not valid UTF-8 (not the UTF-8 encoding of any character
sequence), and on every valid-UTF-8 input it returns `Ok` of exactly the
header set `from_string` produces on the decoded text. -/
theorem c9_from_bytes_err_iff_invalid_utf8 (bs : List Byte) :
    ((∃ e, Headers.from_bytes bs = .error e) ↔ ¬ ∃ cs : List Char, bs = utf8Encode cs) ∧
    (∀ cs : List Char, bs = utf8Encode cs →
      Headers.from_bytes bs = .ok (Headers.from_string (String.mk cs))) := by
  constructor
  · constructor
    · rintro ⟨e, he⟩ ⟨cs, hcs⟩
      subst hcs
      simp only [Headers.from_bytes, decodeUtf8_encode] at he
      exact Except.noConfusion he
    · intro hne
      cases hd : decodeUtf8 bs with
      | none =>
        refine ⟨"InvalidInput", ?_⟩
        simp only [Headers.from_bytes, hd]
      | some cs0 =>
        exact absurd ⟨cs0, decodeUtf8_sound bs.length bs cs0 le_rfl hd⟩ hne
  · intro cs hcs
    subst hcs
    simp only [Headers.from_bytes, decodeUtf8_encode]

end EchoServ
